import Mathlib

/-!
# Verification of the Nand2Tetris toolchain (Assembler, VM Translator, Jack Compiler)

A shallow embedding of the Python sources under `src/projects/{06,08,10,11}`
together with proofs of the behavioural claims about them.  Pure functions of
the source become Lean functions; the stateful writer objects become explicit
state records threaded through the translation; fallible code returns `Option`
or `Except`.
-/

namespace N2T

/-! ## Decimal rendering of naturals

Python renders integers in f-strings (`f'@{index}'`, `f'...ret.{k}'`,
`f'cmp{k}'`) as their decimal digit string.  `natStr` is that rendering,
written with structural recursion on a fuel argument so that it computes by
kernel reduction. -/

/-- Big-endian decimal digits of `n` (empty for 0); `fuel ≥ n` suffices. -/
def natDigitsCore : Nat → Nat → List Char
  | 0, _ => []
  | fuel + 1, n =>
    if n = 0 then []
    else natDigitsCore fuel (n / 10) ++ [Nat.digitChar (n % 10)]

/-- Decimal rendering of a natural number, as Python's `str`/f-string does it. -/
def natStr (n : Nat) : String :=
  if n = 0 then "0" else ⟨natDigitsCore n n⟩

/-- Numeric value of a big-endian decimal digit list. -/
def valBE (l : List Char) : Nat :=
  l.foldl (fun a c => 10 * a + (c.toNat - 48)) 0

theorem toNat_digitChar_of_lt_ten (d : Nat) (h : d < 10) :
    (Nat.digitChar d).toNat = 48 + d := by
  interval_cases d <;> rfl

theorem isDigit_digitChar_of_lt_ten (d : Nat) (h : d < 10) :
    (Nat.digitChar d).isDigit = true := by
  interval_cases d <;> rfl

theorem valBE_append_singleton (l : List Char) (c : Char) :
    valBE (l ++ [c]) = 10 * valBE l + (c.toNat - 48) := by
  simp [valBE, List.foldl_append]

theorem valBE_natDigitsCore :
    ∀ n fuel, n ≤ fuel → valBE (natDigitsCore fuel n) = n := by
  intro n
  induction n using Nat.strong_induction_on with
  | _ n ih =>
    intro fuel hle
    cases fuel with
    | zero => interval_cases n; rfl
    | succ f =>
      by_cases hn : n = 0
      · subst hn; rfl
      · rw [natDigitsCore, if_neg hn, valBE_append_singleton,
          toNat_digitChar_of_lt_ten _ (Nat.mod_lt _ (by omega)),
          ih (n / 10) (Nat.div_lt_self (Nat.pos_of_ne_zero hn) (by omega))
            f (by omega)]
        omega

theorem mem_natDigitsCore_isDigit :
    ∀ fuel n c, c ∈ natDigitsCore fuel n → c.isDigit = true := by
  intro fuel
  induction fuel with
  | zero => intro n c h; simp [natDigitsCore] at h
  | succ f ih =>
    intro n c h
    rw [natDigitsCore] at h
    by_cases hn : n = 0
    · rw [if_pos hn] at h; simp at h
    · rw [if_neg hn] at h
      rcases List.mem_append.mp h with h | h
      · exact ih _ _ h
      · rw [List.mem_singleton] at h
        subst h
        exact isDigit_digitChar_of_lt_ten _ (Nat.mod_lt _ (by omega))

theorem mem_natStr_isDigit {n : Nat} {c : Char} (h : c ∈ (natStr n).data) :
    c.isDigit = true := by
  unfold natStr at h
  by_cases hn : n = 0
  · rw [if_pos hn] at h
    simp only [show ("0" : String).data = ['0'] from rfl, List.mem_singleton] at h
    subst h; rfl
  · rw [if_neg hn] at h
    exact mem_natDigitsCore_isDigit n n c h

theorem natStr_injective : Function.Injective natStr := by
  intro a b h
  unfold natStr at h
  by_cases ha : a = 0 <;> by_cases hb : b = 0
  · omega
  · rw [if_pos ha, if_neg hb] at h
    have hdat : natDigitsCore b b = ['0'] := (congrArg String.data h.symm)
    have := valBE_natDigitsCore b b le_rfl
    rw [hdat] at this
    simp [valBE] at this
    omega
  · rw [if_neg ha, if_pos hb] at h
    have hdat : natDigitsCore a a = ['0'] := (congrArg String.data h)
    have := valBE_natDigitsCore a a le_rfl
    rw [hdat] at this
    simp [valBE] at this
    omega
  · rw [if_neg ha, if_neg hb] at h
    have hdat : natDigitsCore a a = natDigitsCore b b := congrArg String.data h
    have hva := valBE_natDigitsCore a a le_rfl
    have hvb := valBE_natDigitsCore b b le_rfl
    rw [hdat, hvb] at hva
    omega

/-- Splitting lists around a distinguished separator element absent from both
prefixes: the decomposition is unique. -/
theorem append_sep_inj {α : Type} [DecidableEq α] {x : α} :
    ∀ {l₁ l₂ t₁ t₂ : List α}, l₁ ++ x :: t₁ = l₂ ++ x :: t₂ →
    x ∉ l₁ → x ∉ l₂ → l₁ = l₂ ∧ t₁ = t₂ := by
  intro l₁
  induction l₁ with
  | nil =>
    intro l₂ t₁ t₂ h h₁ h₂
    cases l₂ with
    | nil => simpa using h
    | cons b bs =>
      simp only [List.nil_append, List.cons_append, List.cons.injEq] at h
      exact absurd (h.1 ▸ List.mem_cons_self b bs) (h.1 ▸ h₂)
  | cons a as ih =>
    intro l₂ t₁ t₂ h h₁ h₂
    cases l₂ with
    | nil =>
      simp only [List.cons_append, List.nil_append, List.cons.injEq] at h
      exact absurd (h.1 ▸ List.mem_cons_self a as) (fun hx => h₁ (h.1 ▸ hx))
    | cons b bs =>
      simp only [List.cons_append, List.cons.injEq] at h
      obtain ⟨rfl, h⟩ := h
      obtain ⟨rfl, rfl⟩ := ih h (fun hx => h₁ (List.mem_cons_of_mem _ hx))
        (fun hx => h₂ (List.mem_cons_of_mem _ hx))
      exact ⟨rfl, rfl⟩

/-! ## The Hack assembler (`src/projects/06/Assembler.py`)

Commands are modelled post-parse: the `Parser` class classifies each stripped
source line as an A-command (`@value`), a C-command (`dest=comp;jump`) or an
L-pseudo command (`(label)`), with the symbol/mnemonic fields as strings.
The parser's charsets admit all-digit labels (`[\w\.\$]+`), which matters for
symbol resolution below. -/

/-- A parsed Hack assembly command (`CmdType` plus the parsed fields). -/
inductive ACmd
  | acmd (symbol : String)
  | ccmd (dest : Option String) (comp : String) (jump : Option String)
  | lcmd (label : String)
deriving DecidableEq

namespace Assembler

/-- Python's `str.isdigit` for the symbol charset of the assembler:
nonempty and all characters digits. -/
def pyIsDigit (s : String) : Bool :=
  !s.data.isEmpty && s.data.all Char.isDigit

/-- Python's `int(s)` on a digit string. -/
def pyInt (s : String) : Nat :=
  s.data.foldl (fun acc c => 10 * acc + (c.toNat - 48)) 0

/-- The symbol table: a Python dict modelled as an association list where the
most recent binding is first (`add_entry` overwrites). -/
abbrev Table := List (String × Nat)

/-- `SymbolTable.add_entry`. -/
def addEntry (s : String) (a : Nat) (tbl : Table) : Table := (s, a) :: tbl

/-- `SymbolTable.get_address` (the current binding of the key, if any). -/
def getAddr (tbl : Table) (s : String) : Option Nat :=
  (tbl.find? (fun e => e.1 = s)).map (·.2)

/-- `SymbolTable.contains`. -/
def containsSym (tbl : Table) (s : String) : Bool :=
  tbl.any (fun e => e.1 = s)

/-- `SymbolTable.predefined_table`. -/
def predefinedTable : Table :=
  [("SP", 0), ("LCL", 1), ("ARG", 2), ("THIS", 3), ("THAT", 4),
   ("R0", 0), ("R1", 1), ("R2", 2), ("R3", 3), ("R4", 4), ("R5", 5),
   ("R6", 6), ("R7", 7), ("R8", 8), ("R9", 9), ("R10", 10), ("R11", 11),
   ("R12", 12), ("R13", 13), ("R14", 14), ("R15", 15),
   ("SCREEN", 16384), ("KBD", 24576)]

/-- Pass 1 (`Assembler._add_label_symbols`): record each `(LABEL)` at the
current real-instruction count; L-pseudo commands do not bump the counter. -/
def addLabelSymbols : List ACmd → Nat → Table → Table
  | [], _, tbl => tbl
  | .lcmd l :: rest, line, tbl => addLabelSymbols rest line (addEntry l line tbl)
  | .acmd _ :: rest, line, tbl => addLabelSymbols rest (line + 1) tbl
  | .ccmd _ _ _ :: rest, line, tbl => addLabelSymbols rest (line + 1) tbl

/-- `Code.dest_table`. -/
def destTable : List (String × String) :=
  [("null", "000"), ("M", "001"), ("D", "010"), ("MD", "011"),
   ("A", "100"), ("AM", "101"), ("AD", "110"), ("AMD", "111")]

/-- `Code.comp_table`. -/
def compTable : List (String × String) :=
  [("0", "0101010"), ("1", "0111111"), ("-1", "0111010"), ("D", "0001100"),
   ("A", "0110000"), ("!D", "0001101"), ("!A", "0110001"), ("-D", "0001111"),
   ("-A", "0110011"), ("D+1", "0011111"), ("A+1", "0110111"), ("D-1", "0001110"),
   ("A-1", "0110010"), ("D+A", "0000010"), ("D-A", "0010011"), ("A-D", "0000111"),
   ("D&A", "0000000"), ("D|A", "0010101"),
   ("M", "1110000"), ("!M", "1110001"), ("-M", "1110011"), ("M+1", "1110111"),
   ("M-1", "1110010"), ("D+M", "1000010"), ("D-M", "1010011"), ("M-D", "1000111"),
   ("D&M", "1000000"), ("D|M", "1010101")]

/-- `Code.jump_table`. -/
def jumpTable : List (String × String) :=
  [("null", "000"), ("JGT", "001"), ("JEQ", "010"), ("JGE", "011"),
   ("JLT", "100"), ("JNE", "101"), ("JLE", "110"), ("JMP", "111")]

/-- `Code._get_code`: `None` means `'null'`; unknown mnemonics are fatal. -/
def getCode (mnemonic : Option String) (table : List (String × String)) :
    Option String :=
  let m := mnemonic.getD "null"
  (table.find? (fun e => e.1 = m)).map (·.2)

/-- Big-endian binary digits of `n` (empty for 0); `fuel ≥ n` suffices. -/
def natBinCore : Nat → Nat → List Char
  | 0, _ => []
  | fuel + 1, n =>
    if n = 0 then []
    else natBinCore fuel (n / 2) ++ [if n % 2 = 0 then '0' else '1']

/-- Python `f'{v:b}'`: big-endian binary digits, `"0"` for 0. -/
def natBin (n : Nat) : List Char :=
  if n = 0 then ['0'] else natBinCore n n

/-- Python `f'{v:015b}'`: binary, left-padded with `'0'` to at least width 15.
Wider values keep all their digits (no truncation). -/
def fmt015b (v : Nat) : List Char :=
  List.replicate (15 - (natBin v).length) '0' ++ natBin v

/-- The emitted line for an A-instruction: `f'0{value:015b}'`.
(The trailing newline of each `dst.write` is the line separator and is left
implicit: one list element per written line.) -/
def encodeA (v : Nat) : String := ⟨'0' :: fmt015b v⟩

/-- The emitted line for a C-instruction: `f'111{comp}{dest}{jump}'`. -/
def encodeC (dest comp jump : String) : String :=
  ⟨'1' :: '1' :: '1' :: (comp.data ++ dest.data ++ jump.data)⟩

/-- Pass 2 (the loop body of `Assembler.translate`): emit one line per real
instruction, threading the mutable state (symbol table, next free variable
address `n`, started at 16 by the caller).  An unknown C-mnemonic is fatal
(`none`). -/
def translateAux : Table → Nat → List ACmd → Option (Table × Nat × List String)
  | tbl, n, [] => some (tbl, n, [])
  | tbl, n, .acmd s :: rest =>
    if pyIsDigit s then
      match translateAux tbl n rest with
      | some (t, m, out) => some (t, m, encodeA (pyInt s) :: out)
      | none => none
    else
      match getAddr tbl s with
      | some a =>
        match translateAux tbl n rest with
        | some (t, m, out) => some (t, m, encodeA a :: out)
        | none => none
      | none =>
        match translateAux (addEntry s n tbl) (n + 1) rest with
        | some (t, m, out) => some (t, m, encodeA n :: out)
        | none => none
  | tbl, n, .ccmd d c j :: rest =>
    match getCode d destTable, getCode (some c) compTable, getCode j jumpTable with
    | some dc, some cc, some jc =>
      match translateAux tbl n rest with
      | some (t, m, out) => some (t, m, encodeC dc cc jc :: out)
      | none => none
    | _, _, _ => none
  | tbl, n, .lcmd _ :: rest => translateAux tbl n rest

/-- `Assembler.translate`: pass 1 then pass 2 with the variable counter at 16;
the result is the `.hack` output, one string per written line. -/
def translate (cmds : List ACmd) : Option (List String) :=
  (translateAux (addLabelSymbols cmds 0 predefinedTable) 16 cmds).map
    (fun r => r.2.2)

/-- Number of real instructions (A- and C-commands; L-pseudos excluded). -/
def countReal (cmds : List ACmd) : Nat :=
  cmds.countP (fun c => match c with | .lcmd _ => false | _ => true)

/-- The keys of a symbol table. -/
def keys (tbl : Table) : List String := tbl.map (·.1)

/-- Specification-side description of pass 2's variable allocation: the
distinct non-numeric A-command symbols that are not among `seen` (the symbols
already in the table), in order of first occurrence.  Pass 2 assigns them the
addresses 16, 17, 18, … in this order. -/
def newVars (seen : List String) : List ACmd → List String
  | [] => []
  | .acmd s :: rest =>
    if pyIsDigit s = false ∧ s ∉ seen then s :: newVars (s :: seen) rest
    else newVars seen rest
  | .ccmd _ _ _ :: rest => newVars seen rest
  | .lcmd _ :: rest => newVars seen rest

/-- Index of the first occurrence of `s` (length of the list if absent). -/
def idxOf (s : String) : List String → Nat
  | [] => 0
  | t :: rest => if t = s then 0 else idxOf s rest + 1

end Assembler

end N2T

/-! ## The Jack compiler symbol table (`src/projects/11/SymbolTable.py`) -/

namespace N2T.Jack

/-- `SymbolTable.Kind` (STATIC, FIELD, ARG, VAR). -/
inductive Kind
  | statick
  | fieldk
  | argk
  | vark
deriving DecidableEq

/-- `TableEntry`. -/
structure TableEntry where
  name : String
  type : String
  kind : Kind
  index : Nat
deriving DecidableEq

/-- A Python dict modelled as an association list, newest binding first. -/
abbrev Dict (α : Type) := List (String × α)

/-- Dict assignment (overwrite). -/
def dictSet {α : Type} (d : Dict α) (k : String) (v : α) : Dict α := (k, v) :: d

/-- Dict lookup. -/
def dictGet {α : Type} (d : Dict α) (k : String) : Option α :=
  (d.find? (fun e => e.1 = k)).map (·.2)

/-- The `SymbolTable` object's state. -/
structure SymbolTable where
  class_table : Dict TableEntry
  static_index : Nat
  field_index : Nat
  subroutine_table : Dict TableEntry
  arg_index : Nat
  var_index : Nat
  enable_fields : Bool

/-- `SymbolTable.__init__`. -/
def SymbolTable.init : SymbolTable :=
  { class_table := [], static_index := 0, field_index := 0,
    subroutine_table := [], arg_index := 0, var_index := 0,
    enable_fields := true }

/-- `SymbolTable.resetSubroutine`. -/
def SymbolTable.resetSubroutine (st : SymbolTable) (enable : Bool) :
    SymbolTable :=
  { st with
    subroutine_table := []
    arg_index := 0
    var_index := 0
    enable_fields := enable }

/-- `SymbolTable.var_count`. -/
def SymbolTable.varCount (st : SymbolTable) : Kind → Nat
  | .statick => st.static_index
  | .fieldk => st.field_index
  | .argk => st.arg_index
  | .vark => st.var_index

/-- `SymbolTable.define`. -/
def SymbolTable.define (st : SymbolTable) (name type : String) (kind : Kind) :
    SymbolTable :=
  let entry : TableEntry :=
    { name := name, type := type, kind := kind, index := st.varCount kind }
  match kind with
  | .statick =>
    { st with
      class_table := dictSet st.class_table name entry
      static_index := st.static_index + 1 }
  | .fieldk =>
    { st with
      class_table := dictSet st.class_table name entry
      field_index := st.field_index + 1 }
  | .argk =>
    { st with
      subroutine_table := dictSet st.subroutine_table name entry
      arg_index := st.arg_index + 1 }
  | .vark =>
    { st with
      subroutine_table := dictSet st.subroutine_table name entry
      var_index := st.var_index + 1 }

/-- `SymbolTable._get_entry`: subroutine scope first, then class scope with
`FIELD` entries gated by `enable_fields`; `none` models the raised
`RuntimeError`. -/
def SymbolTable.getEntry (st : SymbolTable) (name : String) :
    Option TableEntry :=
  match dictGet st.subroutine_table name with
  | some e => some e
  | none =>
    match dictGet st.class_table name with
    | some e =>
      if ¬(e.kind = Kind.fieldk ∧ st.enable_fields = false) then some e
      else none
    | none => none

/-- `SymbolTable.contains`. -/
def SymbolTable.containsName (st : SymbolTable) (name : String) : Bool :=
  (st.getEntry name).isSome

/-- The `enable_fields` argument `CompilationEngine.compile_subroutine` passes
to `resetSubroutine` for each subroutine keyword (`JackCompiler.py`
lines 105-108): `true` iff the keyword is `constructor` or `method`. -/
def enableFieldsFor (subroutine : String) : Bool :=
  subroutine == "constructor" || subroutine == "method"

/-- A sequence of `define` calls applied in order (as the compilation of a
parameter list and the `var` declarations of a subroutine body performs). -/
def applyDefines (st : SymbolTable) : List (String × String × Kind) →
    SymbolTable
  | [] => st
  | (n, t, k) :: rest => applyDefines (st.define n t k) rest

end N2T.Jack

/-! ## The Jack tokenizer (`src/projects/10/JackTokenizer.py`)

The input stream is a list of characters; the functions below return the
value read together with the rest of the stream.  Python code that would loop
forever reading `''` at EOF is modelled as `none`. -/

namespace N2T.Jack

/-- The `SYMBOLS` set. -/
def isSymbolChar (c : Char) : Bool :=
  c ∈ ['{', '}', '(', ')', '[', ']', '.', ',', ';',
       '+', '-', '*', '/', '&', '|', '<', '>', '=', '~']

/-- The `DIGITS` set (`'0'`–`'9'`). -/
def isDigitChar (c : Char) : Bool := c.isDigit

/-- The `LETTERS` set (ASCII `a`–`z` and `A`–`Z`). -/
def isLetterChar (c : Char) : Bool :=
  ('a' ≤ c ∧ c ≤ 'z') ∨ ('A' ≤ c ∧ c ≤ 'Z')

/-- The `WORDS` set (`DIGITS ∪ LETTERS ∪ {'_'}`). -/
def isWordChar (c : Char) : Bool :=
  isDigitChar c || isLetterChar c || c = '_'

/-- The `WHITESPACES` set. -/
def isWhitespaceChar (c : Char) : Bool := c ∈ [' ', '\t', '\n', '\r']

/-- `JackTokenizer._read_str_constant` after the opening `'"'`: collect
characters until the next `'"'`; at EOF the Python loop never terminates
(`none`). -/
def readStrBody : List Char → Option (List Char × List Char)
  | [] => none
  | c :: rest =>
    if c = '"' then some ([], rest)
    else (readStrBody rest).map (fun vr => (c :: vr.1, vr.2))

/-- `JackTokenizer._read_str_constant`: the stream must be positioned at the
opening `'"'` (the caller `_read_next` dispatches here only when the peeked
character is in `STRING_DELIMS`); returns the token value and the rest of the
stream. -/
def readStrConstant : List Char → Option (String × List Char)
  | [] => none
  | c :: rest =>
    if c = '"' then (readStrBody rest).map (fun vr => (⟨vr.1⟩, vr.2))
    else none

/-- `JackTokenizer._ignore_line_comment` after the leading `"//"`: consume
through the next newline (the Python loop reads `''` forever at EOF: `none`). -/
def dropLineComment : List Char → Option (List Char)
  | [] => none
  | c :: rest => if c = '\n' then some rest else dropLineComment rest

/-- The loop of `JackTokenizer._ignore_block_comment`: `prev` is the
previously read character; terminate on the pair `*/`. -/
def blockCommentAux (prev : Char) : List Char → Option (List Char)
  | [] => none
  | c :: rest =>
    if prev = '*' ∧ c = '/' then some rest else blockCommentAux c rest

/-- `JackTokenizer._ignore_whitespaces_and_comments`; each outer iteration
consumes at least one character, so fuel `length + 1` suffices. -/
def skipWsComments : Nat → List Char → Option (List Char)
  | 0, _ => none
  | fuel + 1, l =>
    match l with
    | [] => some []
    | c :: rest =>
      if isWhitespaceChar c then
        skipWsComments fuel (rest.dropWhile isWhitespaceChar)
      else if c = '/' then
        match rest with
        | '/' :: rest2 => (dropLineComment rest2).bind (skipWsComments fuel)
        | '*' :: rest2 =>
          (blockCommentAux '*' rest2).bind (skipWsComments fuel)
        | _ => some (c :: rest)
      else some (c :: rest)

/-- The classification step of `JackTokenizer._read_next` after skipping
whitespace and comments, as performed for the very first token by
`CompilationEngine.__init__` via `_advance_token`: `ok` when a token (or EOF)
is found, `error` models the raised `RuntimeError(f"Unkown Token: {c}")`
(typo as in the source); `none` models nontermination while skipping. -/
def tokFirst (content : List Char) : Option (Except String Unit) :=
  (skipWsComments (content.length + 1) content).map (fun rest =>
    match rest with
    | [] => Except.ok ()
    | c :: _ =>
      if isSymbolChar c || isDigitChar c || c = '"' || isWordChar c then
        Except.ok ()
      else Except.error ("Unkown Token: " ++ String.mk [c]))

/-- The per-directory loop of `JackCompiler.main` (lines 31-41): for each
`.jack` file, the `CompilationEngine` is constructed — reading the first
token **outside** the `try` block — and then `compile_class()` runs inside
`try/except RuntimeError`.  A caught error yields a printed report
(`some msg`) and the loop continues; an exception from the constructor
propagates and aborts the whole run.  The result is the list of per-file
outcomes for the files that were processed, paired with the uncaught
exception, if any.  `compile` abstracts `compile_class`. -/
def processFiles (compile : List Char → Except String Unit) :
    List (String × List Char) → List (String × Option String) × Option String
  | [] => ([], none)
  | (nm, content) :: rest =>
    match tokFirst content with
    | none => ([], some "nontermination")
    | some (.error e) => ([], some e)
    | some (.ok _) =>
      let rep : Option String :=
        match compile content with
        | .error e => some e
        | .ok _ => none
      let r := processFiles compile rest
      ((nm, rep) :: r.1, r.2)

end N2T.Jack

/-! ## The VM translator (`src/projects/08/VMTranslator.py`)

The parser turns each stripped source line into a `VMCmd`; the `CodeWriter`'s
mutable fields become the `CWState` record, and each `write_*` method returns
the new state together with the list of lines written. -/

namespace N2T.VM

/-- A parsed VM command (`CmdType` plus `arg1`/`arg2`). -/
inductive VMCmd
  | arith (cmd : String)
  | push (segment : String) (index : Nat)
  | pop (segment : String) (index : Nat)
  | label (name : String)
  | goto (name : String)
  | ifgoto (name : String)
  | func (name : String) (nVars : Nat)
  | ret
  | call (name : String) (nVars : Nat)
deriving DecidableEq

/-- Python's `\s` whitespace class (ASCII). -/
def isPySpace (c : Char) : Bool :=
  c ∈ [' ', '\t', '\n', '\r', '\x0b', '\x0c']

/-- Python's `\w` word class (ASCII). -/
def isPyWord (c : Char) : Bool :=
  c.isAlpha || c.isDigit || c = '_'

/-- The char class `[\w\.]` of function names. -/
def isFnChar (c : Char) : Bool := isPyWord c || c = '.'

/-- The char class `[\w\.\:]` of branch labels. -/
def isLabelChar (c : Char) : Bool := isPyWord c || c = '.' || c = ':'

/-- Consume an exact literal prefix. -/
def stripLit : List Char → List Char → Option (List Char)
  | [], l => some l
  | _ :: _, [] => none
  | p :: ps, c :: cs => if c = p then stripLit ps cs else none

/-- Consume `\s+` (greedy). -/
def ws1 : List Char → Option (List Char)
  | [] => none
  | c :: cs => if isPySpace c then some (cs.dropWhile isPySpace) else none

/-- Match the pattern tail `\s+(?P<index>\d+)$`, returning the digits. -/
def wsDigitsEnd (l : List Char) : Option (List Char) :=
  match ws1 l with
  | none => none
  | some l2 =>
    let ds := l2.takeWhile Char.isDigit
    if ds ≠ [] ∧ l2.dropWhile Char.isDigit = [] then some ds else none

/-- Try the segment alternation of `C_PUSH_P`/`C_POP_P`: the regex engine
tries the alternatives in order and backtracks to the next alternative when
the continuation `\s+\d+$` fails. -/
def findSeg : List (List Char) → List Char → Option (List Char × List Char)
  | [], _ => none
  | seg :: rest, l =>
    match stripLit seg l with
    | some l2 =>
      match wsDigitsEnd l2 with
      | some ds => some (seg, ds)
      | none => findSeg rest l
    | none => findSeg rest l

/-- The segment alternatives of `C_PUSH_P`, in source order. -/
def pushSegs : List (List Char) :=
  ["argument".data, "local".data, "static".data, "constant".data,
   "this".data, "that".data, "pointer".data, "temp".data]

/-- The segment alternatives of `C_POP_P`, in source order (no `constant`). -/
def popSegs : List (List Char) :=
  ["argument".data, "local".data, "static".data,
   "this".data, "that".data, "pointer".data, "temp".data]

/-- `int(s)` on a digit string (`Parser.arg2`). -/
def digitsToNat (ds : List Char) : Nat :=
  ds.foldl (fun acc c => 10 * acc + (c.toNat - 48)) 0

/-- `^(add|sub|neg|eq|gt|lt|and|or|not)$`. -/
def matchArith (l : List Char) : Option String :=
  (["add", "sub", "neg", "eq", "gt", "lt", "and", "or", "not"].find?
    (fun w => l = w.data))

/-- `^push\s+(<segment>)\s+(\d+)$` (and the `pop` variant). -/
def matchPushPop (kw : List Char) (segs : List (List Char)) (l : List Char) :
    Option (String × Nat) :=
  match stripLit kw l with
  | none => none
  | some l1 =>
    match ws1 l1 with
    | none => none
    | some l2 =>
      match findSeg segs l2 with
      | none => none
      | some (seg, ds) => some (⟨seg⟩, digitsToNat ds)

/-- `<keyword>\s+(<name chars>+)` — `re.match` is anchored only at the start,
so trailing text after the name is ignored. -/
def matchKwName (kw : List Char) (allowed : Char → Bool) (l : List Char) :
    Option String :=
  match stripLit kw l with
  | none => none
  | some l1 =>
    match ws1 l1 with
    | none => none
    | some l2 =>
      let nm := l2.takeWhile allowed
      if nm = [] then none else some ⟨nm⟩

/-- `<keyword>\s+([\w\.]+)\s+(\d+)` (again with no trailing anchor). -/
def matchKwNameNum (kw : List Char) (l : List Char) : Option (String × Nat) :=
  match stripLit kw l with
  | none => none
  | some l1 =>
    match ws1 l1 with
    | none => none
    | some l2 =>
      let nm := l2.takeWhile isFnChar
      if nm = [] then none
      else
        match ws1 (l2.dropWhile isFnChar) with
        | none => none
        | some l3 =>
          let ds := l3.takeWhile Char.isDigit
          if ds = [] then none else some (⟨nm⟩, digitsToNat ds)

/-- `Parser._parse_cmd`: the patterns are tried in source order; `none`
models the fatal `RuntimeError(f"Failed to parse command: {cmd}")`. -/
def parseCmd (l : List Char) : Option VMCmd :=
  match matchArith l with
  | some cmd => some (.arith cmd)
  | none =>
  match matchPushPop "push".data pushSegs l with
  | some (seg, i) => some (.push seg i)
  | none =>
  match matchPushPop "pop".data popSegs l with
  | some (seg, i) => some (.pop seg i)
  | none =>
  match matchKwName "label".data isLabelChar l with
  | some nm => some (.label nm)
  | none =>
  match matchKwName "goto".data isLabelChar l with
  | some nm => some (.goto nm)
  | none =>
  match matchKwName "if-goto".data isLabelChar l with
  | some nm => some (.ifgoto nm)
  | none =>
  match matchKwNameNum "function".data l with
  | some (nm, n) => some (.func nm n)
  | none =>
  match stripLit "return".data l with
  | some _ => some .ret
  | none =>
  match matchKwNameNum "call".data l with
  | some (nm, n) => some (.call nm n)
  | none => none

/-- The `CodeWriter`'s mutable state. -/
structure CWState where
  debug : Bool
  cur_namespace : Option String
  cur_scope : Option String
  cur_ret_i : Nat
  cur_jump_i : Nat
deriving DecidableEq

/-- How a Python f-string renders a value that may be `None`
(`f'{self.cur_scope}$...'` renders the string `"None"` before any
`function` command has been seen). -/
def pyStrOpt : Option String → String
  | none => "None"
  | some s => s

/-- The common `push_d_to_stack` block. -/
def pushD : List String := ["@SP", "AM=M+1", "A=A-1", "M=D"]

/-- The common `pop_stack_to_d` block. -/
def popD : List String := ["@SP", "AM=M-1", "D=M"]

/-- `CodeWriter.SEGMENT_TO_ADDR`. -/
def segmentToAddr (seg : String) : String :=
  if seg = "local" then "LCL"
  else if seg = "argument" then "ARG"
  else if seg = "this" then "THIS"
  else "THAT"

/-- `CodeWriter.POINTER_TO_ADDR` applied to `str(index)` (a lookup miss
renders as `"None"` in the emitted f-string). -/
def pointerToAddr (index : Nat) : String :=
  if index = 0 then "THIS" else if index = 1 then "THAT" else "None"

/-- The label `f'{self.cur_scope}$ret.{self.cur_ret_i}'` of `write_call`. -/
def retLabel (st : CWState) : String :=
  pyStrOpt st.cur_scope ++ "$ret." ++ natStr st.cur_ret_i

/-- `CodeWriter.write_arithmetic`. -/
def writeArithmetic (st : CWState) (cmd : String) : CWState × List String :=
  let dbg : List String := if st.debug then ["// " ++ cmd] else []
  if cmd = "add" ∨ cmd = "sub" ∨ cmd = "and" ∨ cmd = "or" then
    let op : String :=
      if cmd = "add" then "+" else if cmd = "sub" then "-"
      else if cmd = "and" then "&" else "|"
    (st, dbg ++ ["@SP", "AM=M-1", "D=M", "A=A-1", "M=M" ++ op ++ "D"])
  else if cmd = "neg" ∨ cmd = "not" then
    let op : String := if cmd = "neg" then "-" else "!"
    (st, dbg ++ ["@SP", "A=M-1", "M=" ++ op ++ "M"])
  else if cmd = "eq" ∨ cmd = "gt" ∨ cmd = "lt" then
    let jump : String :=
      if cmd = "eq" then "JEQ" else if cmd = "gt" then "JGT" else "JLT"
    let k := st.cur_jump_i
    ({ st with cur_jump_i := k + 1 },
      dbg ++
      ["@SP", "AM=M-1", "D=M", "A=A-1", "D=M-D",
       "@cmp" ++ natStr k, "D;" ++ jump,
       "@SP", "A=M-1", "M=0", "@cmp" ++ natStr k ++ "end", "0;JMP",
       "(cmp" ++ natStr k ++ ")", "@SP", "A=M-1", "M=-1",
       "(cmp" ++ natStr k ++ "end)"])
  else (st, dbg)

/-- `CodeWriter.write_push`. -/
def writePush (st : CWState) (segment : String) (index : Nat) :
    CWState × List String :=
  let dbg : List String :=
    if st.debug then ["// push " ++ segment ++ " " ++ natStr index] else []
  if segment = "local" ∨ segment = "argument" ∨ segment = "this" ∨
      segment = "that" then
    (st, dbg ++ ["@" ++ segmentToAddr segment, "D=M", "@" ++ natStr index,
      "D=D+A", "A=D", "D=M"] ++ pushD)
  else if segment = "constant" then
    (st, dbg ++ ["@" ++ natStr index, "D=A"] ++ pushD)
  else if segment = "static" then
    (st, dbg ++ ["@" ++ pyStrOpt st.cur_namespace ++ "." ++ natStr index,
      "D=M"] ++ pushD)
  else if segment = "temp" then
    (st, dbg ++ ["@" ++ natStr (5 + index), "D=M"] ++ pushD)
  else if segment = "pointer" then
    (st, dbg ++ ["@" ++ pointerToAddr index, "D=M"] ++ pushD)
  else (st, dbg)

/-- `CodeWriter.write_pop`. -/
def writePop (st : CWState) (segment : String) (index : Nat) :
    CWState × List String :=
  let dbg : List String :=
    if st.debug then ["// pop " ++ segment ++ " " ++ natStr index] else []
  if segment = "local" ∨ segment = "argument" ∨ segment = "this" ∨
      segment = "that" then
    (st, dbg ++ ["@" ++ segmentToAddr segment, "D=M", "@" ++ natStr index,
      "D=D+A", "@R13", "M=D"] ++ popD ++ ["@R13", "A=M", "M=D"])
  else if segment = "static" then
    (st, dbg ++ popD ++
      ["@" ++ pyStrOpt st.cur_namespace ++ "." ++ natStr index, "M=D"])
  else if segment = "temp" then
    (st, dbg ++ popD ++ ["@" ++ natStr (5 + index), "M=D"])
  else if segment = "pointer" then
    (st, dbg ++ popD ++ ["@" ++ pointerToAddr index, "M=D"])
  else (st, dbg)

/-- `CodeWriter.write_label`. -/
def writeLabel (st : CWState) (label : String) : CWState × List String :=
  let dbg : List String := if st.debug then ["// label " ++ label] else []
  (st, dbg ++ ["(" ++ pyStrOpt st.cur_scope ++ "$" ++ label ++ ")"])

/-- `CodeWriter.write_goto`. -/
def writeGoto (st : CWState) (label : String) : CWState × List String :=
  let dbg : List String := if st.debug then ["// goto " ++ label] else []
  (st, dbg ++ ["@" ++ pyStrOpt st.cur_scope ++ "$" ++ label, "0;JMP"])

/-- `CodeWriter.write_if`. -/
def writeIf (st : CWState) (label : String) : CWState × List String :=
  let dbg : List String := if st.debug then ["// if-goto " ++ label] else []
  (st, dbg ++ ["@SP", "AM=M-1", "D=M",
    "@" ++ pyStrOpt st.cur_scope ++ "$" ++ label, "D;JNE"])

/-- `CodeWriter.write_function`: sets the current scope, resets the
return-site counter to 0, emits the entry label and `n_vars` zero-pushes. -/
def writeFunction (st : CWState) (functionName : String) (nVars : Nat) :
    CWState × List String :=
  let dbg : List String :=
    if st.debug then ["// function " ++ functionName ++ " " ++ natStr nVars]
    else []
  ({ st with cur_scope := some functionName, cur_ret_i := 0 },
    dbg ++ ["(" ++ functionName ++ ")"] ++
      (List.replicate nVars ["@SP", "AM=M+1", "A=A-1", "M=0"]).flatten)

/-- `CodeWriter.write_call`. -/
def writeCall (st : CWState) (functionName : String) (nVars : Nat) :
    CWState × List String :=
  let dbg : List String :=
    if st.debug then ["// call " ++ functionName ++ " " ++ natStr nVars]
    else []
  ({ st with cur_ret_i := st.cur_ret_i + 1 },
    dbg ++
    ["@" ++ retLabel st, "D=A"] ++ pushD ++
    ["@LCL", "D=M"] ++ pushD ++
    ["@ARG", "D=M"] ++ pushD ++
    ["@THIS", "D=M"] ++ pushD ++
    ["@THAT", "D=M"] ++ pushD ++
    ["@SP", "D=M", "@" ++ natStr (5 + nVars), "D=D-A", "@ARG", "M=D",
     "@SP", "D=M", "@LCL", "M=D",
     "@" ++ functionName, "0;JMP",
     "(" ++ retLabel st ++ ")"])

/-- `CodeWriter.write_return` (state unchanged). -/
def writeReturn (st : CWState) : CWState × List String :=
  let dbg : List String := if st.debug then ["// return"] else []
  let derefFrameMinus : Nat → List String := fun i =>
    ["@R15", "D=M", "@" ++ natStr i, "D=D-A", "A=D", "D=M"]
  (st, dbg ++
    ["@LCL", "D=M", "@R15", "M=D"] ++
    derefFrameMinus 5 ++ ["@R14", "M=D"] ++
    ["@ARG", "D=M", "@R13", "M=D", "@SP", "AM=M-1", "D=M", "@R13", "A=M",
     "M=D"] ++
    ["@ARG", "D=M", "D=D+1", "@SP", "M=D"] ++
    derefFrameMinus 1 ++ ["@THAT", "M=D"] ++
    derefFrameMinus 2 ++ ["@THIS", "M=D"] ++
    derefFrameMinus 3 ++ ["@ARG", "M=D"] ++
    derefFrameMinus 4 ++ ["@LCL", "M=D"] ++
    ["@R14", "A=M", "0;JMP"])

/-- `CodeWriter.write_init` (the `-b` bootstrap): set `SP = 256`, the
sentinel frame pointers, then `call Sys.init 0`. -/
def writeInit (st : CWState) : CWState × List String :=
  let dbg : List String := if st.debug then ["// Bootstrap code"] else []
  let lines := dbg ++
    ["@256", "D=A", "@SP", "M=D", "D=-1", "@LCL", "M=D", "D=D-1", "@ARG",
     "M=D", "D=D-1", "@THIS", "M=D", "D=D-1", "@THAT", "M=D"]
  let callR := writeCall st "Sys.init" 0
  (callR.1, lines ++ callR.2)

/-- One iteration of `VMTranslator._translate_single_file`'s dispatch. -/
def stepCmd (st : CWState) : VMCmd → CWState × List String
  | .arith cmd => writeArithmetic st cmd
  | .push seg i => writePush st seg i
  | .pop seg i => writePop st seg i
  | .label nm => writeLabel st nm
  | .goto nm => writeGoto st nm
  | .ifgoto nm => writeIf st nm
  | .func nm n => writeFunction st nm n
  | .ret => writeReturn st
  | .call nm n => writeCall st nm n

/-- `VMTranslator._translate_single_file`: the writer state threads through
the commands; the output is the concatenation of the written lines. -/
def translateCmds (st : CWState) : List VMCmd → CWState × List String
  | [] => (st, [])
  | c :: rest =>
    let r1 := stepCmd st c
    let r2 := translateCmds r1.1 rest
    (r2.1, r1.2 ++ r2.2)

/-- The per-file loop of `VMTranslator.translate`: `set_namespace` with the
file's stem, then translate its commands; the writer state (including both
counters and the current scope) persists across files. -/
def translateFiles (st : CWState) :
    List (String × List VMCmd) → CWState × List String
  | [] => (st, [])
  | (ns, cmds) :: rest =>
    let r1 := translateCmds { st with cur_namespace := some ns } cmds
    let r2 := translateFiles r1.1 rest
    (r2.1, r1.2 ++ r2.2)

/-- The fresh `CodeWriter` state of `VMTranslator.translate`. -/
def initState (debug : Bool) : CWState :=
  { debug := debug, cur_namespace := none, cur_scope := none,
    cur_ret_i := 0, cur_jump_i := 0 }

/-- `VMTranslator._sort_src_paths`'s comparator `cmp`, on file stems. -/
def vmCmp (p1 p2 : String) : Int :=
  if p1 = "Sys" then -1
  else if p1 = "Main" ∧ p2 ≠ "Sys" then -1
  else 0

/-- Insertion at an index (the element shift of CPython's `binarysort`). -/
def insertAt (x : String) : Nat → List String → List String
  | 0, l => x :: l
  | _ + 1, [] => [x]
  | i + 1, c :: l => c :: insertAt x i l

/-- The binary search of CPython's `binarysort`: find the insertion point of
`pivot` in the sorted prefix `a[l:r]`, comparing with
`cmp_to_key`'s `K(pivot) < K(a[p]) ⟺ cmp(pivot, a[p]) < 0`.
Each step shrinks `r - l`, so that much fuel suffices. -/
def binSearchPos (a : List String) (pivot : String) :
    Nat → Nat → Nat → Nat
  | 0, l, _ => l
  | fuel + 1, l, r =>
    if l < r then
      if vmCmp pivot (a.getD (l + (r - l) / 2) "") < 0 then
        binSearchPos a pivot fuel l (l + (r - l) / 2)
      else binSearchPos a pivot fuel (l + (r - l) / 2 + 1) r
    else l

/-- The insertion loop of CPython's `binarysort`: insert each remaining
element into the sorted prefix. -/
def binInsertAll : List String → List String → List String
  | a, [] => a
  | a, x :: rest =>
    binInsertAll (insertAt x (binSearchPos a x a.length 0 a.length) a) rest

/-- The strictly-descending extension of CPython's `count_run`. -/
def countRunDesc (prev : String) : List String → List String × List String
  | [] => ([], [])
  | c :: rest =>
    if vmCmp c prev < 0 then
      let r := countRunDesc c rest
      (c :: r.1, r.2)
    else ([], c :: rest)

/-- The weakly-ascending extension of CPython's `count_run`. -/
def countRunAsc (prev : String) : List String → List String × List String
  | [] => ([], [])
  | c :: rest =>
    if ¬(vmCmp c prev < 0) then
      let r := countRunAsc c rest
      (c :: r.1, r.2)
    else ([], c :: rest)

/-- CPython's `count_run`: the natural initial run, reversed when it is
strictly descending, together with the rest of the list. -/
def pySortRun : List String → List String × List String
  | [] => ([], [])
  | [x] => ([x], [])
  | x :: y :: rest =>
    if vmCmp y x < 0 then
      let r := countRunDesc y rest
      ((x :: y :: r.1).reverse, r.2)
    else
      let r := countRunAsc y rest
      (x :: y :: r.1, r.2)

/-- `self.src_paths.sort(key=functools.cmp_to_key(cmp))` on the list of file
stems: for fewer than 64 elements CPython's `list.sort` is exactly
`count_run` followed by `binarysort` over the whole list (minrun = n), i.e.
binary insertion sort starting from the natural initial run. -/
def pySort (l : List String) : List String :=
  let r := pySortRun l
  binInsertAll r.1 r.2

/-- The rank that `cmp` tries to realize: `Sys` first, `Main` second,
everything else last (spec section 9 suggests exactly this key function). -/
def stemRank (s : String) : Nat :=
  if s = "Sys" then 0 else if s = "Main" then 1 else 2

end N2T.VM

/-! ## A Hack CPU model for running emitted assembly

Modelled from the spec: the Hack CPU itself is not part of this repository's
sources; sections 4.1, 6 and the glossary of the spec describe it (16-bit
two's-complement words, registers A and D, RAM addressed through A,
C-instructions `dest=comp;jump`, jumps targeting the A register, symbols
resolved to label addresses or predefined RAM addresses).  The model below
follows that description so that the assembly emitted by the VM translator
can be executed. -/

namespace N2T.Hack

/-- Wrap an integer into the 16-bit two's-complement range. -/
def wrap16 (x : Int) : Int := (x + 32768) % 65536 - 32768

/-- A parsed Hack assembly line: address instruction, compute instruction
(dest, comp, jump — empty lists when absent), or a label pseudo-line. -/
inductive HInst
  | ainst (sym : String)
  | cinst (dest : List Char) (comp : String) (jump : String)
  | linst (lbl : String)
deriving DecidableEq

/-- Modelled from the spec: parse one symbolic assembly line, given as a
character list (`[dest=]comp[;jump]`, `@value`, `(LABEL)`). -/
def parseHackAux : List Char → Option HInst
  | [] => none
  | c :: rest =>
    if c = '(' then some (.linst ⟨rest.takeWhile (· ≠ ')')⟩)
    else if c = '@' then some (.ainst ⟨rest⟩)
    else
      let l := c :: rest
      let destPart : List Char :=
        if '=' ∈ l then l.takeWhile (· ≠ '=') else []
      let compJump : List Char :=
        if '=' ∈ l then (l.dropWhile (· ≠ '=')).tail else l
      let compPart := compJump.takeWhile (· ≠ ';')
      let jumpPart : List Char :=
        if ';' ∈ compJump then (compJump.dropWhile (· ≠ ';')).tail else []
      some (.cinst destPart ⟨compPart⟩ ⟨jumpPart⟩)

/-- Modelled from the spec: parse one symbolic assembly line. -/
def parseHack (s : String) : Option HInst :=
  parseHackAux s.data

/-- Modelled from the spec: the 28 `comp` mnemonics (section 6), with 16-bit
wraparound; `!` and `-` are bitwise/arithmetic negation on two's-complement
words. -/
def evalComp (comp : String) (a d m : Int) : Option Int :=
  if comp = "0" then some 0
  else if comp = "1" then some 1
  else if comp = "-1" then some (-1)
  else if comp = "D" then some d
  else if comp = "A" then some a
  else if comp = "!D" then some (wrap16 (-d - 1))
  else if comp = "!A" then some (wrap16 (-a - 1))
  else if comp = "-D" then some (wrap16 (-d))
  else if comp = "-A" then some (wrap16 (-a))
  else if comp = "D+1" then some (wrap16 (d + 1))
  else if comp = "A+1" then some (wrap16 (a + 1))
  else if comp = "D-1" then some (wrap16 (d - 1))
  else if comp = "A-1" then some (wrap16 (a - 1))
  else if comp = "D+A" then some (wrap16 (d + a))
  else if comp = "D-A" then some (wrap16 (d - a))
  else if comp = "A-D" then some (wrap16 (a - d))
  else if comp = "D&A" then some (wrap16 (Int.land d a))
  else if comp = "D|A" then some (wrap16 (Int.lor d a))
  else if comp = "M" then some m
  else if comp = "!M" then some (wrap16 (-m - 1))
  else if comp = "-M" then some (wrap16 (-m))
  else if comp = "M+1" then some (wrap16 (m + 1))
  else if comp = "M-1" then some (wrap16 (m - 1))
  else if comp = "D+M" then some (wrap16 (d + m))
  else if comp = "D-M" then some (wrap16 (d - m))
  else if comp = "M-D" then some (wrap16 (m - d))
  else if comp = "D&M" then some (wrap16 (Int.land d m))
  else if comp = "D|M" then some (wrap16 (Int.lor d m))
  else none

/-- Modelled from the spec: jump conditions on the ALU output. -/
def jumpTaken (jump : String) (v : Int) : Bool :=
  if jump = "JGT" then v > 0
  else if jump = "JEQ" then v = 0
  else if jump = "JGE" then v ≥ 0
  else if jump = "JLT" then v < 0
  else if jump = "JNE" then v ≠ 0
  else if jump = "JLE" then v ≤ 0
  else if jump = "JMP" then true
  else false

/-- The machine state: registers A and D, RAM, program counter. -/
structure MState where
  regA : Int
  regD : Int
  mem : Int → Int
  pc : Nat

/-- Write the ALU output to the destinations; the RAM write addresses the
value A held at the start of the instruction. -/
def applyDest (dest : List Char) (v : Int) (st : MState) : MState :=
  let st1 := if 'M' ∈ dest then
    { st with mem := fun addr => if addr = st.regA then v else st.mem addr }
    else st
  let st2 := if 'A' ∈ dest then { st1 with regA := v } else st1
  if 'D' ∈ dest then { st2 with regD := v } else st2

/-- The instruction index of the label line `(sym)`, if any. -/
def findLabel : List HInst → String → Option Nat
  | [], _ => none
  | .linst l :: rest, sym =>
    if l = sym then some 0 else (findLabel rest sym).map (· + 1)
  | .ainst _ :: rest, sym => (findLabel rest sym).map (· + 1)
  | .cinst _ _ _ :: rest, sym => (findLabel rest sym).map (· + 1)

/-- Modelled from the spec: symbol resolution for the A-instruction — a
decimal literal, else a label of the program (its instruction index), else a
predefined RAM symbol. -/
def resolveSym (prog : List HInst) (sym : String) : Option Int :=
  if sym.data ≠ [] ∧ sym.data.all Char.isDigit then
    some (Int.ofNat (VM.digitsToNat sym.data))
  else
    match findLabel prog sym with
    | some idx => some (Int.ofNat idx)
    | none => (Assembler.getAddr Assembler.predefinedTable sym).map Int.ofNat

/-- One machine step; a label line is a no-op (its address is its index). -/
def step (prog : List HInst) (st : MState) : Option MState :=
  match prog[st.pc]? with
  | none => none
  | some (.linst _) => some { st with pc := st.pc + 1 }
  | some (.ainst sym) =>
    (resolveSym prog sym).map (fun v => { st with regA := v, pc := st.pc + 1 })
  | some (.cinst dest comp jump) =>
    (evalComp comp st.regA st.regD (st.mem st.regA)).map (fun v =>
      let st' := applyDest dest v st
      if jumpTaken jump v then { st' with pc := st.regA.toNat }
      else { st' with pc := st.pc + 1 })

/-- Run until the program counter passes the end of the program (with
fuel). -/
def run (prog : List HInst) : Nat → MState → Option MState
  | 0, st => if prog.length ≤ st.pc then some st else none
  | fuel + 1, st =>
    if prog.length ≤ st.pc then some st
    else (step prog st).bind (run prog fuel)

/-- The jump mnemonic `write_arithmetic` selects for a comparison command. -/
def jumpFor (cmd : String) : String :=
  if cmd = "eq" then "JEQ" else if cmd = "gt" then "JGT" else "JLT"

/-- The mathematical comparison a VM `eq`/`gt`/`lt` command denotes. -/
def cmpHolds (cmd : String) (x y : Int) : Bool :=
  if cmd = "eq" then x = y else if cmd = "gt" then x > y else x < y

/-- The comparison block of `write_arithmetic`, parsed instruction by
instruction (17 lines; the two label pseudo-instructions sit at indices 12
and 16). -/
def cmpProg (jump : String) (k : Nat) : List HInst :=
  [.ainst "SP", .cinst ['A', 'M'] "M-1" "", .cinst ['D'] "M" "",
   .cinst ['A'] "A-1" "", .cinst ['D'] "M-D" "",
   .ainst ("cmp" ++ natStr k), .cinst [] "D" jump,
   .ainst "SP", .cinst ['A'] "M-1" "", .cinst ['M'] "0" "",
   .ainst ("cmp" ++ natStr k ++ "end"), .cinst [] "0" "JMP",
   .linst ("cmp" ++ natStr k),
   .ainst "SP", .cinst ['A'] "M-1" "", .cinst ['M'] "-1" "",
   .linst ("cmp" ++ natStr k ++ "end")]

/-- Stack memory exhibiting the 16-bit overflow of the comparison block:
`SP = 258`, `x = 16384` at 256, `y = -16384` at 257. -/
def cexMem : Int → Int := fun addr =>
  if addr = 0 then 258 else if addr = 256 then 16384
  else if addr = 257 then -16384 else 0

/-- A small well-formed stack memory: `SP = 5`, `x = 7` at 3, `y = 7` at 4. -/
def wMem : Int → Int := fun addr =>
  if addr = 0 then 5 else if addr = 3 then 7 else if addr = 4 then 7 else 0

end N2T.Hack

/-! # Part 2: theorems -/

namespace N2T.Assembler

theorem countReal_nil : countReal [] = 0 := rfl

theorem countReal_cons_acmd (s : String) (rest : List ACmd) :
    countReal (.acmd s :: rest) = countReal rest + 1 := by
  simp [countReal, List.countP_cons]

theorem countReal_cons_ccmd (d : Option String) (c : String) (j : Option String)
    (rest : List ACmd) :
    countReal (.ccmd d c j :: rest) = countReal rest + 1 := by
  simp [countReal, List.countP_cons]

theorem countReal_cons_lcmd (l : String) (rest : List ACmd) :
    countReal (.lcmd l :: rest) = countReal rest := by
  simp [countReal, List.countP_cons]

theorem getAddr_addEntry_self (tbl : Table) (s : String) (a : Nat) :
    getAddr (addEntry s a tbl) s = some a := by
  simp [getAddr, addEntry, List.find?_cons]

theorem getAddr_addEntry_ne (tbl : Table) (r s : String) (a : Nat) (h : r ≠ s) :
    getAddr (addEntry r a tbl) s = getAddr tbl s := by
  simp [getAddr, addEntry, List.find?_cons, h]

theorem getAddr_eq_none_iff (tbl : Table) (s : String) :
    getAddr tbl s = none ↔ s ∉ keys tbl := by
  constructor
  · intro h hm
    obtain ⟨⟨a, b⟩, hab, he⟩ := List.mem_map.mp hm
    simp only [getAddr, Option.map_eq_none'] at h
    have := List.find?_eq_none.mp h ⟨a, b⟩ hab
    simp only [decide_eq_true_eq, Bool.not_eq_true', decide_eq_false_iff_not] at this
    exact this he
  · intro h
    simp only [getAddr, Option.map_eq_none']
    rw [List.find?_eq_none]
    intro e he
    simp only [decide_eq_true_eq]
    intro hx
    exact h (List.mem_map.mpr ⟨e, he, hx⟩)

theorem getAddr_addLabelSymbols_of_not_mem :
    ∀ (cmds : List ACmd) (line : Nat) (tbl : Table) (X : String),
    (ACmd.lcmd X) ∉ cmds →
    getAddr (addLabelSymbols cmds line tbl) X = getAddr tbl X := by
  intro cmds
  induction cmds with
  | nil => intro line tbl X _; rfl
  | cons c rest ih =>
    intro line tbl X h
    cases c with
    | lcmd l =>
      have hne : l ≠ X := by rintro rfl; exact h (List.mem_cons_self _ _)
      rw [addLabelSymbols, ih _ _ _ (fun hm => h (List.mem_cons_of_mem _ hm)),
        getAddr_addEntry_ne _ _ _ _ hne]
    | acmd s => exact ih _ _ _ (fun hm => h (List.mem_cons_of_mem _ hm))
    | ccmd d cc j => exact ih _ _ _ (fun hm => h (List.mem_cons_of_mem _ hm))

theorem getAddr_addLabelSymbols_last :
    ∀ (cmds : List ACmd) (j line : Nat) (tbl : Table) (X : String),
    cmds[j]? = some (.lcmd X) →
    (∀ k, j < k → cmds[k]? ≠ some (.lcmd X)) →
    getAddr (addLabelSymbols cmds line tbl) X =
      some (line + countReal (cmds.take j)) := by
  intro cmds
  induction cmds with
  | nil => intro j line tbl X h _; simp at h
  | cons c rest ih =>
    intro j line tbl X hj hlast
    cases j with
    | zero =>
      rw [List.getElem?_cons_zero, Option.some.injEq] at hj
      subst hj
      have hnm : (ACmd.lcmd X) ∉ rest := by
        intro hm
        obtain ⟨k, hk⟩ := List.mem_iff_getElem?.mp hm
        exact hlast (k + 1) (by omega) (by rwa [List.getElem?_cons_succ])
      rw [addLabelSymbols, getAddr_addLabelSymbols_of_not_mem _ _ _ _ hnm,
        getAddr_addEntry_self]
      simp [countReal]
    | succ j =>
      rw [List.getElem?_cons_succ] at hj
      have hlast' : ∀ k, j < k → rest[k]? ≠ some (.lcmd X) := by
        intro k hk
        have := hlast (k + 1) (by omega)
        rwa [List.getElem?_cons_succ] at this
      cases c with
      | lcmd l =>
        rw [addLabelSymbols, ih j line (addEntry l line tbl) X hj hlast',
          List.take_succ_cons, countReal_cons_lcmd]
      | acmd s =>
        rw [addLabelSymbols, ih j (line + 1) tbl X hj hlast',
          List.take_succ_cons, countReal_cons_acmd]
        congr 1
        omega
      | ccmd d cc jj =>
        rw [addLabelSymbols, ih j (line + 1) tbl X hj hlast',
          List.take_succ_cons, countReal_cons_ccmd]
        congr 1
        omega

end N2T.Assembler

namespace N2T.Assembler

theorem translateAux_resolves :
    ∀ (cmds : List ACmd) (tbl : Table) (n : Nat) (t : Table) (m : Nat)
      (out : List String) (X : String) (a : Nat),
    translateAux tbl n cmds = some (t, m, out) →
    pyIsDigit X = false → getAddr tbl X = some a →
    ∀ k, cmds[k]? = some (.acmd X) →
    out[countReal (cmds.take k)]? = some (encodeA a) := by
  intro cmds
  induction cmds with
  | nil => intro tbl n t m out X a htr hnd hget k hk; simp at hk
  | cons c rest ih =>
    intro tbl n t m out X a htr hnd hget k hk
    cases k with
    | zero =>
      rw [List.getElem?_cons_zero, Option.some.injEq] at hk
      subst hk
      rw [translateAux, if_neg (by simp [hnd]), hget] at htr
      cases hrec : translateAux tbl n rest with
      | none => rw [hrec] at htr; simp at htr
      | some r =>
        obtain ⟨t', m', out'⟩ := r
        rw [hrec] at htr
        simp only [Option.some.injEq, Prod.mk.injEq] at htr
        obtain ⟨-, -, rfl⟩ := htr
        simp [countReal]
    | succ k =>
      rw [List.getElem?_cons_succ] at hk
      cases c with
      | acmd s =>
        rw [translateAux] at htr
        by_cases hds : pyIsDigit s
        · rw [if_pos (by simp [hds])] at htr
          cases hrec : translateAux tbl n rest with
          | none => rw [hrec] at htr; simp at htr
          | some r =>
            obtain ⟨t', m', out'⟩ := r
            rw [hrec] at htr
            simp only [Option.some.injEq, Prod.mk.injEq] at htr
            obtain ⟨-, -, rfl⟩ := htr
            rw [List.take_succ_cons, countReal_cons_acmd,
              List.getElem?_cons_succ]
            exact ih tbl n t' m' out' X a hrec hnd hget k hk
        · rw [if_neg (by simp [hds])] at htr
          cases hga : getAddr tbl s with
          | some b =>
            rw [hga] at htr
            cases hrec : translateAux tbl n rest with
            | none => rw [hrec] at htr; simp at htr
            | some r =>
              obtain ⟨t', m', out'⟩ := r
              rw [hrec] at htr
              simp only [Option.some.injEq, Prod.mk.injEq] at htr
              obtain ⟨-, -, rfl⟩ := htr
              rw [List.take_succ_cons, countReal_cons_acmd,
                List.getElem?_cons_succ]
              exact ih tbl n t' m' out' X a hrec hnd hget k hk
          | none =>
            rw [hga] at htr
            cases hrec : translateAux (addEntry s n tbl) (n + 1) rest with
            | none => rw [hrec] at htr; simp at htr
            | some r =>
              obtain ⟨t', m', out'⟩ := r
              rw [hrec] at htr
              simp only [Option.some.injEq, Prod.mk.injEq] at htr
              obtain ⟨-, -, rfl⟩ := htr
              rw [List.take_succ_cons, countReal_cons_acmd,
                List.getElem?_cons_succ]
              have hne : s ≠ X := by
                rintro rfl; rw [hga] at hget; cases hget
              exact ih (addEntry s n tbl) (n + 1) t' m' out' X a hrec hnd
                (by rwa [getAddr_addEntry_ne _ _ _ _ hne]) k hk
      | ccmd d cc jj =>
        rw [translateAux] at htr
        cases hd : getCode d destTable with
        | none => rw [hd] at htr; simp at htr
        | some dc =>
        cases hc : getCode (some cc) compTable with
        | none => rw [hd, hc] at htr; simp at htr
        | some ccc =>
        cases hj : getCode jj jumpTable with
        | none => rw [hd, hc, hj] at htr; simp at htr
        | some jc =>
          rw [hd, hc, hj] at htr
          cases hrec : translateAux tbl n rest with
          | none => rw [hrec] at htr; simp at htr
          | some r =>
            obtain ⟨t', m', out'⟩ := r
            rw [hrec] at htr
            simp only [Option.some.injEq, Prod.mk.injEq] at htr
            obtain ⟨-, -, rfl⟩ := htr
            rw [List.take_succ_cons, countReal_cons_ccmd,
              List.getElem?_cons_succ]
            exact ih tbl n t' m' out' X a hrec hnd hget k hk
      | lcmd l =>
        rw [translateAux] at htr
        rw [List.take_succ_cons, countReal_cons_lcmd]
        exact ih tbl n t m out X a htr hnd hget k hk

theorem translateAux_length :
    ∀ (cmds : List ACmd) (tbl : Table) (n : Nat) (t : Table) (m : Nat)
      (out : List String),
    translateAux tbl n cmds = some (t, m, out) →
    out.length = countReal cmds := by
  intro cmds
  induction cmds with
  | nil =>
    intro tbl n t m out htr
    rw [translateAux] at htr
    simp only [Option.some.injEq, Prod.mk.injEq] at htr
    obtain ⟨-, -, rfl⟩ := htr
    rfl
  | cons c rest ih =>
    intro tbl n t m out htr
    cases c with
    | acmd s =>
      rw [translateAux] at htr
      by_cases hds : pyIsDigit s
      · rw [if_pos (by simp [hds])] at htr
        cases hrec : translateAux tbl n rest with
        | none => rw [hrec] at htr; simp at htr
        | some r =>
          obtain ⟨t', m', out'⟩ := r
          rw [hrec] at htr
          simp only [Option.some.injEq, Prod.mk.injEq] at htr
          obtain ⟨-, -, rfl⟩ := htr
          rw [List.length_cons, countReal_cons_acmd, ih _ _ _ _ _ hrec]
      · rw [if_neg (by simp [hds])] at htr
        cases hga : getAddr tbl s with
        | some b =>
          rw [hga] at htr
          cases hrec : translateAux tbl n rest with
          | none => rw [hrec] at htr; simp at htr
          | some r =>
            obtain ⟨t', m', out'⟩ := r
            rw [hrec] at htr
            simp only [Option.some.injEq, Prod.mk.injEq] at htr
            obtain ⟨-, -, rfl⟩ := htr
            rw [List.length_cons, countReal_cons_acmd, ih _ _ _ _ _ hrec]
        | none =>
          rw [hga] at htr
          cases hrec : translateAux (addEntry s n tbl) (n + 1) rest with
          | none => rw [hrec] at htr; simp at htr
          | some r =>
            obtain ⟨t', m', out'⟩ := r
            rw [hrec] at htr
            simp only [Option.some.injEq, Prod.mk.injEq] at htr
            obtain ⟨-, -, rfl⟩ := htr
            rw [List.length_cons, countReal_cons_acmd, ih _ _ _ _ _ hrec]
    | ccmd d cc jj =>
      rw [translateAux] at htr
      cases hd : getCode d destTable with
      | none => rw [hd] at htr; simp at htr
      | some dc =>
      cases hc : getCode (some cc) compTable with
      | none => rw [hd, hc] at htr; simp at htr
      | some ccc =>
      cases hj : getCode jj jumpTable with
      | none => rw [hd, hc, hj] at htr; simp at htr
      | some jc =>
        rw [hd, hc, hj] at htr
        cases hrec : translateAux tbl n rest with
        | none => rw [hrec] at htr; simp at htr
        | some r =>
          obtain ⟨t', m', out'⟩ := r
          rw [hrec] at htr
          simp only [Option.some.injEq, Prod.mk.injEq] at htr
          obtain ⟨-, -, rfl⟩ := htr
          rw [List.length_cons, countReal_cons_ccmd, ih _ _ _ _ _ hrec]
    | lcmd l =>
      rw [translateAux] at htr
      rw [countReal_cons_lcmd]
      exact ih _ _ _ _ _ htr

end N2T.Assembler

namespace N2T.Assembler

theorem natBinCore_length_le :
    ∀ (fuel n k : Nat), n < 2 ^ k → (natBinCore fuel n).length ≤ k := by
  intro fuel
  induction fuel with
  | zero => intro n k _; simp [natBinCore]
  | succ f ih =>
    intro n k hk
    rw [natBinCore]
    by_cases hn : n = 0
    · rw [if_pos hn]; simp
    · rw [if_neg hn]
      cases k with
      | zero => simp at hk; omega
      | succ k =>
        rw [List.length_append, List.length_singleton]
        have : n / 2 < 2 ^ k := by
          rw [Nat.div_lt_iff_lt_mul (by omega)]
          calc n < 2 ^ (k + 1) := hk
          _ = 2 ^ k * 2 := by ring
        have := ih (n / 2) k this
        omega

theorem natBin_length_le {n : Nat} (h : n < 32768) : (natBin n).length ≤ 15 := by
  unfold natBin
  by_cases hn : n = 0
  · rw [if_pos hn]; simp
  · rw [if_neg hn]
    exact natBinCore_length_le n n 15 h

theorem mem_natBinCore :
    ∀ (fuel n : Nat) (c : Char), c ∈ natBinCore fuel n → c = '0' ∨ c = '1' := by
  intro fuel
  induction fuel with
  | zero => intro n c h; simp [natBinCore] at h
  | succ f ih =>
    intro n c h
    rw [natBinCore] at h
    by_cases hn : n = 0
    · rw [if_pos hn] at h; simp at h
    · rw [if_neg hn] at h
      rcases List.mem_append.mp h with h | h
      · exact ih _ _ h
      · rw [List.mem_singleton] at h
        subst h
        split <;> simp

theorem mem_natBin {n : Nat} {c : Char} (h : c ∈ natBin n) :
    c = '0' ∨ c = '1' := by
  unfold natBin at h
  by_cases hn : n = 0
  · rw [if_pos hn] at h; rw [List.mem_singleton] at h; exact Or.inl h
  · rw [if_neg hn] at h; exact mem_natBinCore n n c h

theorem fmt015b_length {v : Nat} (h : v < 32768) : (fmt015b v).length = 15 := by
  have := natBin_length_le h
  simp only [fmt015b, List.length_append, List.length_replicate]
  omega

theorem encodeA_length {v : Nat} (h : v < 32768) : (encodeA v).length = 16 := by
  show (encodeA v).data.length = 16
  simp only [encodeA]
  rw [List.length_cons, fmt015b_length h]

theorem mem_encodeA {v : Nat} {c : Char} (h : c ∈ (encodeA v).data) :
    c = '0' ∨ c = '1' := by
  simp only [encodeA] at h
  rcases List.mem_cons.mp h with h | h
  · exact Or.inl h
  · rcases List.mem_append.mp h with h | h
    · exact Or.inl (List.mem_replicate.mp h).2
    · exact mem_natBin h

theorem getCode_mem {m : Option String} {tbl : List (String × String)}
    {v : String} (h : getCode m tbl = some v) : ∃ p ∈ tbl, p.2 = v := by
  simp only [getCode, Option.map_eq_some'] at h
  obtain ⟨p, hp, rfl⟩ := h
  exact ⟨p, List.mem_of_find?_eq_some hp, rfl⟩

theorem destCode_spec {d : Option String} {v : String}
    (h : getCode d destTable = some v) :
    v.length = 3 ∧ ∀ c ∈ v.data, c = '0' ∨ c = '1' := by
  obtain ⟨p, hp, rfl⟩ := getCode_mem h
  revert hp
  have : ∀ p ∈ destTable,
      p.2.length = 3 ∧ ∀ c ∈ p.2.data, c = '0' ∨ c = '1' := by decide
  exact this p

theorem compCode_spec {d : Option String} {v : String}
    (h : getCode d compTable = some v) :
    v.length = 7 ∧ ∀ c ∈ v.data, c = '0' ∨ c = '1' := by
  obtain ⟨p, hp, rfl⟩ := getCode_mem h
  revert hp
  have : ∀ p ∈ compTable,
      p.2.length = 7 ∧ ∀ c ∈ p.2.data, c = '0' ∨ c = '1' := by decide
  exact this p

theorem jumpCode_spec {d : Option String} {v : String}
    (h : getCode d jumpTable = some v) :
    v.length = 3 ∧ ∀ c ∈ v.data, c = '0' ∨ c = '1' := by
  obtain ⟨p, hp, rfl⟩ := getCode_mem h
  revert hp
  have : ∀ p ∈ jumpTable,
      p.2.length = 3 ∧ ∀ c ∈ p.2.data, c = '0' ∨ c = '1' := by decide
  exact this p

theorem encodeC_spec {d j : Option String} {cm : String} {dc cc jc : String}
    (hd : getCode d destTable = some dc)
    (hc : getCode (some cm) compTable = some cc)
    (hj : getCode j jumpTable = some jc) :
    (encodeC dc cc jc).length = 16 ∧
    ∀ c ∈ (encodeC dc cc jc).data, c = '0' ∨ c = '1' := by
  obtain ⟨hdl, hdm⟩ := destCode_spec hd
  obtain ⟨hcl, hcm⟩ := compCode_spec hc
  obtain ⟨hjl, hjm⟩ := jumpCode_spec hj
  constructor
  · show (encodeC dc cc jc).data.length = 16
    simp only [encodeC, List.length_cons, List.length_append]
    have h1 : dc.data.length = 3 := hdl
    have h2 : cc.data.length = 7 := hcl
    have h3 : jc.data.length = 3 := hjl
    omega
  · intro c hc'
    have hc'' : c ∈ '1' :: '1' :: '1' :: (cc.data ++ dc.data ++ jc.data) := hc'
    rcases List.mem_cons.mp hc'' with rfl | hc''
    · right; rfl
    rcases List.mem_cons.mp hc'' with rfl | hc''
    · right; rfl
    rcases List.mem_cons.mp hc'' with rfl | hc''
    · right; rfl
    rcases List.mem_append.mp hc'' with hx | hx
    · rcases List.mem_append.mp hx with hy | hy
      · exact hcm c hy
      · exact hdm c hy
    · exact hjm c hx

end N2T.Assembler

namespace N2T.Assembler

theorem addLabelSymbols_bound :
    ∀ (cmds : List ACmd) (line : Nat) (tbl : Table),
    (∀ p ∈ tbl, p.2 < 32768) → line + cmds.length ≤ 32768 →
    ∀ p ∈ addLabelSymbols cmds line tbl, p.2 < 32768 := by
  intro cmds
  induction cmds with
  | nil => intro line tbl htbl _ p hp; exact htbl p hp
  | cons c rest ih =>
    intro line tbl htbl hline p hp
    cases c with
    | lcmd l =>
      rw [addLabelSymbols] at hp
      refine ih line (addEntry l line tbl) ?_ ?_ p hp
      · intro q hq
        rcases List.mem_cons.mp hq with rfl | hq
        · simp only [List.length_cons] at hline; omega
        · exact htbl q hq
      · simp only [List.length_cons] at hline; omega
    | acmd s =>
      rw [addLabelSymbols] at hp
      refine ih (line + 1) tbl htbl ?_ p hp
      simp only [List.length_cons] at hline; omega
    | ccmd d cc jj =>
      rw [addLabelSymbols] at hp
      refine ih (line + 1) tbl htbl ?_ p hp
      simp only [List.length_cons] at hline; omega

theorem getAddr_some_mem {tbl : Table} {s : String} {a : Nat}
    (h : getAddr tbl s = some a) : ∃ p ∈ tbl, p.2 = a := by
  simp only [getAddr, Option.map_eq_some'] at h
  obtain ⟨p, hp, rfl⟩ := h
  exact ⟨p, List.mem_of_find?_eq_some hp, rfl⟩

theorem translateAux_lines :
    ∀ (cmds : List ACmd) (tbl : Table) (n : Nat) (t : Table) (m : Nat)
      (out : List String),
    translateAux tbl n cmds = some (t, m, out) →
    (∀ p ∈ tbl, p.2 < 32768) →
    n + cmds.length ≤ 32768 →
    (∀ s, ACmd.acmd s ∈ cmds → pyIsDigit s = true → pyInt s < 32768) →
    ∀ line ∈ out, line.length = 16 ∧ ∀ c ∈ line.data, c = '0' ∨ c = '1' := by
  intro cmds
  induction cmds with
  | nil =>
    intro tbl n t m out htr _ _ _ line hline
    rw [translateAux] at htr
    simp only [Option.some.injEq, Prod.mk.injEq] at htr
    obtain ⟨-, -, rfl⟩ := htr
    simp at hline
  | cons c rest ih =>
    intro tbl n t m out htr htbl hn hlit line hline
    have hlit' : ∀ s, ACmd.acmd s ∈ rest → pyIsDigit s = true → pyInt s < 32768 :=
      fun s hs => hlit s (List.mem_cons_of_mem _ hs)
    have hn' : n + rest.length ≤ 32768 := by
      simp only [List.length_cons] at hn; omega
    cases c with
    | acmd s =>
      rw [translateAux] at htr
      by_cases hds : pyIsDigit s
      · rw [if_pos (by simp [hds])] at htr
        cases hrec : translateAux tbl n rest with
        | none => rw [hrec] at htr; simp at htr
        | some r =>
          obtain ⟨t', m', out'⟩ := r
          rw [hrec] at htr
          simp only [Option.some.injEq, Prod.mk.injEq] at htr
          obtain ⟨-, -, rfl⟩ := htr
          rcases List.mem_cons.mp hline with rfl | hline
          · have hv : pyInt s < 32768 := hlit s (List.mem_cons_self _ _) hds
            exact ⟨encodeA_length hv, fun c hc => mem_encodeA hc⟩
          · exact ih tbl n t' m' out' hrec htbl hn' hlit' line hline
      · rw [if_neg (by simp [hds])] at htr
        cases hga : getAddr tbl s with
        | some b =>
          rw [hga] at htr
          cases hrec : translateAux tbl n rest with
          | none => rw [hrec] at htr; simp at htr
          | some r =>
            obtain ⟨t', m', out'⟩ := r
            rw [hrec] at htr
            simp only [Option.some.injEq, Prod.mk.injEq] at htr
            obtain ⟨-, -, rfl⟩ := htr
            rcases List.mem_cons.mp hline with rfl | hline
            · obtain ⟨p, hp, rfl⟩ := getAddr_some_mem hga
              exact ⟨encodeA_length (htbl p hp), fun c hc => mem_encodeA hc⟩
            · exact ih tbl n t' m' out' hrec htbl hn' hlit' line hline
        | none =>
          rw [hga] at htr
          cases hrec : translateAux (addEntry s n tbl) (n + 1) rest with
          | none => rw [hrec] at htr; simp at htr
          | some r =>
            obtain ⟨t', m', out'⟩ := r
            rw [hrec] at htr
            simp only [Option.some.injEq, Prod.mk.injEq] at htr
            obtain ⟨-, -, rfl⟩ := htr
            have hnlt : n < 32768 := by
              simp only [List.length_cons] at hn; omega
            rcases List.mem_cons.mp hline with rfl | hline
            · exact ⟨encodeA_length hnlt, fun c hc => mem_encodeA hc⟩
            · refine ih (addEntry s n tbl) (n + 1) t' m' out' hrec ?_ ?_ hlit'
                line hline
              · intro q hq
                rcases List.mem_cons.mp hq with rfl | hq
                · exact hnlt
                · exact htbl q hq
              · simp only [List.length_cons] at hn; omega
    | ccmd d cc jj =>
      rw [translateAux] at htr
      cases hd : getCode d destTable with
      | none => rw [hd] at htr; simp at htr
      | some dc =>
      cases hcc : getCode (some cc) compTable with
      | none => rw [hd, hcc] at htr; simp at htr
      | some ccc =>
      cases hj : getCode jj jumpTable with
      | none => rw [hd, hcc, hj] at htr; simp at htr
      | some jc =>
        rw [hd, hcc, hj] at htr
        cases hrec : translateAux tbl n rest with
        | none => rw [hrec] at htr; simp at htr
        | some r =>
          obtain ⟨t', m', out'⟩ := r
          rw [hrec] at htr
          simp only [Option.some.injEq, Prod.mk.injEq] at htr
          obtain ⟨-, -, rfl⟩ := htr
          rcases List.mem_cons.mp hline with rfl | hline
          · exact encodeC_spec hd hcc hj
          · exact ih tbl n t' m' out' hrec htbl hn' hlit' line hline
    | lcmd l =>
      rw [translateAux] at htr
      exact ih tbl n t m out htr htbl hn' hlit' line hline

theorem translateAux_literal :
    ∀ (cmds : List ACmd) (tbl : Table) (n : Nat) (t : Table) (m : Nat)
      (out : List String) (X : String),
    translateAux tbl n cmds = some (t, m, out) →
    pyIsDigit X = true →
    ∀ k, cmds[k]? = some (.acmd X) →
    out[countReal (cmds.take k)]? = some (encodeA (pyInt X)) := by
  intro cmds
  induction cmds with
  | nil => intro tbl n t m out X htr hd k hk; simp at hk
  | cons c rest ih =>
    intro tbl n t m out X htr hd k hk
    cases k with
    | zero =>
      rw [List.getElem?_cons_zero, Option.some.injEq] at hk
      subst hk
      rw [translateAux, if_pos (by simp [hd])] at htr
      cases hrec : translateAux tbl n rest with
      | none => rw [hrec] at htr; simp at htr
      | some r =>
        obtain ⟨t', m', out'⟩ := r
        rw [hrec] at htr
        simp only [Option.some.injEq, Prod.mk.injEq] at htr
        obtain ⟨-, -, rfl⟩ := htr
        simp [countReal]
    | succ k =>
      rw [List.getElem?_cons_succ] at hk
      cases c with
      | acmd s =>
        rw [translateAux] at htr
        by_cases hds : pyIsDigit s
        · rw [if_pos (by simp [hds])] at htr
          cases hrec : translateAux tbl n rest with
          | none => rw [hrec] at htr; simp at htr
          | some r =>
            obtain ⟨t', m', out'⟩ := r
            rw [hrec] at htr
            simp only [Option.some.injEq, Prod.mk.injEq] at htr
            obtain ⟨-, -, rfl⟩ := htr
            rw [List.take_succ_cons, countReal_cons_acmd, List.getElem?_cons_succ]
            exact ih tbl n t' m' out' X hrec hd k hk
        · rw [if_neg (by simp [hds])] at htr
          cases hga : getAddr tbl s with
          | some b =>
            rw [hga] at htr
            cases hrec : translateAux tbl n rest with
            | none => rw [hrec] at htr; simp at htr
            | some r =>
              obtain ⟨t', m', out'⟩ := r
              rw [hrec] at htr
              simp only [Option.some.injEq, Prod.mk.injEq] at htr
              obtain ⟨-, -, rfl⟩ := htr
              rw [List.take_succ_cons, countReal_cons_acmd,
                List.getElem?_cons_succ]
              exact ih tbl n t' m' out' X hrec hd k hk
          | none =>
            rw [hga] at htr
            cases hrec : translateAux (addEntry s n tbl) (n + 1) rest with
            | none => rw [hrec] at htr; simp at htr
            | some r =>
              obtain ⟨t', m', out'⟩ := r
              rw [hrec] at htr
              simp only [Option.some.injEq, Prod.mk.injEq] at htr
              obtain ⟨-, -, rfl⟩ := htr
              rw [List.take_succ_cons, countReal_cons_acmd,
                List.getElem?_cons_succ]
              exact ih (addEntry s n tbl) (n + 1) t' m' out' X hrec hd k hk
      | ccmd d cc jj =>
        rw [translateAux] at htr
        cases hdc : getCode d destTable with
        | none => rw [hdc] at htr; simp at htr
        | some dc =>
        cases hcc : getCode (some cc) compTable with
        | none => rw [hdc, hcc] at htr; simp at htr
        | some ccc =>
        cases hj : getCode jj jumpTable with
        | none => rw [hdc, hcc, hj] at htr; simp at htr
        | some jc =>
          rw [hdc, hcc, hj] at htr
          cases hrec : translateAux tbl n rest with
          | none => rw [hrec] at htr; simp at htr
          | some r =>
            obtain ⟨t', m', out'⟩ := r
            rw [hrec] at htr
            simp only [Option.some.injEq, Prod.mk.injEq] at htr
            obtain ⟨-, -, rfl⟩ := htr
            rw [List.take_succ_cons, countReal_cons_ccmd,
              List.getElem?_cons_succ]
            exact ih tbl n t' m' out' X hrec hd k hk
      | lcmd l =>
        rw [translateAux] at htr
        rw [List.take_succ_cons, countReal_cons_lcmd]
        exact ih tbl n t m out X htr hd k hk

end N2T.Assembler

namespace N2T.Assembler

theorem translate_eq_some {cmds : List ACmd} {out : List String}
    (h : translate cmds = some out) :
    ∃ t m, translateAux (addLabelSymbols cmds 0 predefinedTable) 16 cmds =
      some (t, m, out) := by
  simp only [translate, Option.map_eq_some'] at h
  obtain ⟨⟨t, m, o⟩, htr, rfl⟩ := h
  exact ⟨t, m, htr⟩

/-- **C2** (amended; see the counterexample below for why the label must not
be all digits): for every label `X` that is not entirely made of digits,
declared by `(X)`, every A-command `@X` anywhere in the input assembles to
the number of real instructions preceding the *last* declaration of `X` —
that is, the index of the real instruction that follows that declaration —
regardless of whether the A-command appears before or after the declaration,
and L-pseudo commands do not advance the index used for this resolution. -/
theorem claim_C2_label_resolution (cmds : List ACmd) (X : String) (j : Nat)
    (out : List String)
    (hnd : pyIsDigit X = false)
    (hj : cmds[j]? = some (.lcmd X))
    (hlast : ∀ k, j < k → cmds[k]? ≠ some (.lcmd X))
    (hout : translate cmds = some out) :
    ∀ k, cmds[k]? = some (.acmd X) →
    out[countReal (cmds.take k)]? = some (encodeA (countReal (cmds.take j))) := by
  intro k hk
  obtain ⟨t, m, htr⟩ := translate_eq_some hout
  have hres := getAddr_addLabelSymbols_last cmds j 0 predefinedTable X hj hlast
  rw [Nat.zero_add] at hres
  exact translateAux_resolves cmds _ 16 t m out X _ htr hnd hres k hk

/-- **C2** counterexample: the claim as stated fails for the all-digits label
`(2)` declared after one real instruction.  The A-command `@2` does not
assemble to the index (1) of the instruction following the declaration:
`isdigit` wins and the literal value 2 is emitted instead. -/
theorem claim_C2_counterexample :
    translate [ACmd.acmd "2", ACmd.lcmd "2", ACmd.ccmd none "0" (some "JMP")] =
      some ["0000000000000010", "1110101010000111"] ∧
    (["0000000000000010", "1110101010000111"] : List String)[
      countReal ([ACmd.acmd "2", ACmd.lcmd "2",
        ACmd.ccmd none "0" (some "JMP")].take 0)]? ≠
      some (encodeA (countReal ([ACmd.acmd "2", ACmd.lcmd "2",
        ACmd.ccmd none "0" (some "JMP")].take 1))) := by
  exact ⟨rfl, by decide⟩

theorem claim_C2_witness :
    (["0000000000000010", "1110101010000111"] : List String)[
      countReal ([ACmd.acmd "LOOP", ACmd.ccmd none "0" (some "JMP"),
        ACmd.lcmd "LOOP"].take 0)]? =
      some (encodeA (countReal ([ACmd.acmd "LOOP",
        ACmd.ccmd none "0" (some "JMP"), ACmd.lcmd "LOOP"].take 2))) := by
  refine claim_C2_label_resolution
    [ACmd.acmd "LOOP", ACmd.ccmd none "0" (some "JMP"), ACmd.lcmd "LOOP"]
    "LOOP" 2 ["0000000000000010", "1110101010000111"] (by decide) rfl ?_ rfl 0 rfl
  intro k hk h
  rw [List.getElem?_eq_none (by simp; omega)] at h
  cases h

/-- **C3** (amended; the source formats A-values with `f'{v:015b}'`, which
widens beyond 15 binary digits for values `≥ 2^15`, so the claim needs every
resolved A-value to fit in 15 bits — guaranteed here by requiring numeric
literals below `2^15` and at most 32752 commands): when translation succeeds,
the output has exactly one line per real instruction, each line is 16
characters of `0`/`1`, and every numeric A-command's line is `encodeA` of its
operand: the character `'0'` followed by the operand's 15-bit value. -/
theorem claim_C3_output_shape (cmds : List ACmd) (out : List String)
    (hout : translate cmds = some out)
    (hlen : cmds.length ≤ 32752)
    (hlit : ∀ s, ACmd.acmd s ∈ cmds → pyIsDigit s = true → pyInt s < 32768) :
    out.length = countReal cmds ∧
    (∀ line ∈ out, line.length = 16 ∧ ∀ c ∈ line.data, c = '0' ∨ c = '1') ∧
    (∀ k s, cmds[k]? = some (.acmd s) → pyIsDigit s = true →
      out[countReal (cmds.take k)]? = some (encodeA (pyInt s)) ∧
      (encodeA (pyInt s)).data = '0' :: fmt015b (pyInt s) ∧
      (fmt015b (pyInt s)).length = 15) := by
  obtain ⟨t, m, htr⟩ := translate_eq_some hout
  have hbound : ∀ p ∈ addLabelSymbols cmds 0 predefinedTable, p.2 < 32768 := by
    refine addLabelSymbols_bound cmds 0 predefinedTable ?_ (by omega)
    decide
  refine ⟨translateAux_length cmds _ 16 t m out htr, ?_, ?_⟩
  · exact translateAux_lines cmds _ 16 t m out htr hbound (by omega) hlit
  · intro k s hk hds
    refine ⟨translateAux_literal cmds _ 16 t m out s htr hds k hk, rfl, ?_⟩
    refine fmt015b_length (hlit s ?_ hds)
    exact List.mem_iff_getElem?.mpr ⟨k, hk⟩

/-- **C3** counterexample: for the numeric literal `@32768` (`= 2^15`) the
emitted line has 17 characters, not 16: `f'{v:015b}'` does not truncate. -/
theorem claim_C3_counterexample :
    translate [ACmd.acmd "32768"] = some ["01000000000000000"] ∧
    countReal [ACmd.acmd "32768"] = 1 ∧
    ("01000000000000000" : String).length ≠ 16 := by
  exact ⟨rfl, rfl, by decide⟩

theorem claim_C3_witness :
    (["0000000000000101"] : List String).length =
      countReal [ACmd.acmd "5"] ∧
    (∀ line ∈ (["0000000000000101"] : List String),
      line.length = 16 ∧ ∀ c ∈ line.data, c = '0' ∨ c = '1') := by
  have h := claim_C3_output_shape [ACmd.acmd "5"] ["0000000000000101"] rfl
    (by simp) (by intro s hs hd; simp at hs; subst hs; decide)
  exact ⟨h.1, h.2.1⟩

end N2T.Assembler

namespace N2T.Assembler

theorem keys_addEntry (s : String) (a : Nat) (tbl : Table) :
    keys (addEntry s a tbl) = s :: keys tbl := rfl

theorem idxOf_cons_self (s : String) (l : List String) :
    idxOf s (s :: l) = 0 := by simp [idxOf]

theorem idxOf_cons_ne {r s : String} (l : List String) (h : r ≠ s) :
    idxOf s (r :: l) = idxOf s l + 1 := by simp [idxOf, h]

theorem mem_keys_of_getAddr_some {tbl : Table} {s : String} {a : Nat}
    (h : getAddr tbl s = some a) : s ∈ keys tbl := by
  by_contra hmem
  rw [← getAddr_eq_none_iff] at hmem
  rw [hmem] at h
  cases h

theorem translateAux_fresh :
    ∀ (cmds : List ACmd) (tbl : Table) (n : Nat) (t : Table) (m : Nat)
      (out : List String) (X : String),
    translateAux tbl n cmds = some (t, m, out) →
    pyIsDigit X = false → getAddr tbl X = none →
    ∀ k, cmds[k]? = some (.acmd X) →
    X ∈ newVars (keys tbl) (cmds.take (k + 1)) ∧
    out[countReal (cmds.take k)]? =
      some (encodeA (n + idxOf X (newVars (keys tbl) (cmds.take (k + 1))))) := by
  intro cmds
  induction cmds with
  | nil => intro tbl n t m out X htr hnd hga k hk; simp at hk
  | cons c rest ih =>
    intro tbl n t m out X htr hnd hga k hk
    cases k with
    | zero =>
      rw [List.getElem?_cons_zero, Option.some.injEq] at hk
      subst hk
      rw [translateAux, if_neg (by simp [hnd]), hga] at htr
      cases hrec : translateAux (addEntry X n tbl) (n + 1) rest with
      | none => rw [hrec] at htr; simp at htr
      | some r =>
        obtain ⟨t', m', out'⟩ := r
        rw [hrec] at htr
        simp only [Option.some.injEq, Prod.mk.injEq] at htr
        obtain ⟨-, -, rfl⟩ := htr
        have hx : X ∉ keys tbl := (getAddr_eq_none_iff tbl X).mp hga
        rw [List.take_succ_cons, List.take_zero, newVars,
          if_pos ⟨hnd, hx⟩, idxOf_cons_self]
        exact ⟨List.mem_cons_self _ _, by simp [countReal]⟩
    | succ k =>
      rw [List.getElem?_cons_succ] at hk
      cases c with
      | acmd s =>
        rw [translateAux] at htr
        by_cases hds : pyIsDigit s
        · rw [if_pos (by simp [hds])] at htr
          cases hrec : translateAux tbl n rest with
          | none => rw [hrec] at htr; simp at htr
          | some r =>
            obtain ⟨t', m', out'⟩ := r
            rw [hrec] at htr
            simp only [Option.some.injEq, Prod.mk.injEq] at htr
            obtain ⟨-, -, rfl⟩ := htr
            simp only [List.take_succ_cons]
            rw [countReal_cons_acmd, List.getElem?_cons_succ, newVars,
              if_neg (by simp [hds])]
            exact ih tbl n t' m' out' X hrec hnd hga k hk
        · rw [if_neg (by simp [hds])] at htr
          cases hgs : getAddr tbl s with
          | some b =>
            rw [hgs] at htr
            cases hrec : translateAux tbl n rest with
            | none => rw [hrec] at htr; simp at htr
            | some r =>
              obtain ⟨t', m', out'⟩ := r
              rw [hrec] at htr
              simp only [Option.some.injEq, Prod.mk.injEq] at htr
              obtain ⟨-, -, rfl⟩ := htr
              have hsk : s ∈ keys tbl := mem_keys_of_getAddr_some hgs
              simp only [List.take_succ_cons]
              rw [countReal_cons_acmd, List.getElem?_cons_succ, newVars,
                if_neg (by simp [hsk])]
              exact ih tbl n t' m' out' X hrec hnd hga k hk
          | none =>
            rw [hgs] at htr
            cases hrec : translateAux (addEntry s n tbl) (n + 1) rest with
            | none => rw [hrec] at htr; simp at htr
            | some r =>
              obtain ⟨t', m', out'⟩ := r
              rw [hrec] at htr
              simp only [Option.some.injEq, Prod.mk.injEq] at htr
              obtain ⟨-, -, rfl⟩ := htr
              have hsk : s ∉ keys tbl := (getAddr_eq_none_iff tbl s).mp hgs
              simp only [List.take_succ_cons]
              rw [countReal_cons_acmd, List.getElem?_cons_succ, newVars,
                if_pos ⟨(by simpa using hds), hsk⟩]
              by_cases hsx : s = X
              · subst hsx
                rw [idxOf_cons_self]
                refine ⟨List.mem_cons_self _ _, ?_⟩
                have := translateAux_resolves rest (addEntry s n tbl) (n + 1)
                  t' m' out' s n hrec hnd (getAddr_addEntry_self tbl s n) k hk
                simpa using this
              · have hout := ih (addEntry s n tbl) (n + 1) t' m' out' X hrec
                  hnd (by rwa [getAddr_addEntry_ne _ _ _ _ hsx]) k hk
                rw [keys_addEntry] at hout
                rw [idxOf_cons_ne _ hsx]
                refine ⟨List.mem_cons_of_mem _ hout.1, ?_⟩
                rw [hout.2]
                congr 2
                omega
      | ccmd d cc jj =>
        rw [translateAux] at htr
        cases hdc : getCode d destTable with
        | none => rw [hdc] at htr; simp at htr
        | some dc =>
        cases hcc : getCode (some cc) compTable with
        | none => rw [hdc, hcc] at htr; simp at htr
        | some ccc =>
        cases hj : getCode jj jumpTable with
        | none => rw [hdc, hcc, hj] at htr; simp at htr
        | some jc =>
          rw [hdc, hcc, hj] at htr
          cases hrec : translateAux tbl n rest with
          | none => rw [hrec] at htr; simp at htr
          | some r =>
            obtain ⟨t', m', out'⟩ := r
            rw [hrec] at htr
            simp only [Option.some.injEq, Prod.mk.injEq] at htr
            obtain ⟨-, -, rfl⟩ := htr
            simp only [List.take_succ_cons]
            rw [countReal_cons_ccmd, List.getElem?_cons_succ, newVars]
            exact ih tbl n t' m' out' X hrec hnd hga k hk
      | lcmd l =>
        rw [translateAux] at htr
        simp only [List.take_succ_cons]
        rw [countReal_cons_lcmd, newVars]
        exact ih tbl n t m out X htr hnd hga k hk

/-- **C7**: in pass 2, a non-numeric A-command symbol already in the symbol
table (predefined, label, or previously seen variable) resolves to its
recorded address; a symbol not in the table is allocated a fresh RAM address
— the `i`-th distinct such symbol (in order of first occurrence, as computed
by `newVars`) gets address `16 + i`, so addresses start at 16 and increase by
one per new variable — and every occurrence of the same symbol, earlier or
later, emits that same address.  In particular `@i`, `@j`, `@i` maps `i` to
16 and `j` to 17 and emits three instructions. -/
theorem claim_C7_variable_allocation (cmds : List ACmd) (out : List String)
    (hout : translate cmds = some out) :
    (∀ X a k, pyIsDigit X = false →
      getAddr (addLabelSymbols cmds 0 predefinedTable) X = some a →
      cmds[k]? = some (.acmd X) →
      out[countReal (cmds.take k)]? = some (encodeA a)) ∧
    (∀ X k, pyIsDigit X = false →
      getAddr (addLabelSymbols cmds 0 predefinedTable) X = none →
      cmds[k]? = some (.acmd X) →
      X ∈ newVars (keys (addLabelSymbols cmds 0 predefinedTable))
        (cmds.take (k + 1)) ∧
      out[countReal (cmds.take k)]? = some (encodeA (16 +
        idxOf X (newVars (keys (addLabelSymbols cmds 0 predefinedTable))
          (cmds.take (k + 1)))))) ∧
    translate [ACmd.acmd "i", ACmd.acmd "j", ACmd.acmd "i"] =
      some [encodeA 16, encodeA 17, encodeA 16] := by
  obtain ⟨t, m, htr⟩ := translate_eq_some hout
  refine ⟨?_, ?_, rfl⟩
  · intro X a k hnd hget hk
    exact translateAux_resolves cmds _ 16 t m out X a htr hnd hget k hk
  · intro X k hnd hget hk
    exact translateAux_fresh cmds _ 16 t m out X htr hnd hget k hk

theorem claim_C7_witness :
    "i" ∈ newVars (keys (addLabelSymbols
      [ACmd.acmd "i", ACmd.acmd "j", ACmd.acmd "i"] 0 predefinedTable))
      ([ACmd.acmd "i", ACmd.acmd "j", ACmd.acmd "i"].take 3) ∧
    ([encodeA 16, encodeA 17, encodeA 16] : List String)[
      countReal ([ACmd.acmd "i", ACmd.acmd "j", ACmd.acmd "i"].take 2)]? =
      some (encodeA (16 + idxOf "i" (newVars (keys (addLabelSymbols
        [ACmd.acmd "i", ACmd.acmd "j", ACmd.acmd "i"] 0 predefinedTable))
        ([ACmd.acmd "i", ACmd.acmd "j", ACmd.acmd "i"].take 3)))) :=
  (claim_C7_variable_allocation
    [ACmd.acmd "i", ACmd.acmd "j", ACmd.acmd "i"]
    [encodeA 16, encodeA 17, encodeA 16] rfl).2.1 "i" 2 (by decide) (by decide)
    rfl

end N2T.Assembler

namespace N2T.Jack

theorem applyDefines_enable_fields :
    ∀ (defs : List (String × String × Kind)) (st : SymbolTable),
    (applyDefines st defs).enable_fields = st.enable_fields := by
  intro defs
  induction defs with
  | nil => intro st; rfl
  | cons d rest ih =>
    intro st
    obtain ⟨n, t, k⟩ := d
    rw [applyDefines, ih]
    cases k <;> rfl

theorem applyDefines_sub_kinds :
    ∀ (defs : List (String × String × Kind)) (st : SymbolTable),
    (∀ p ∈ st.subroutine_table, p.2.kind = Kind.argk ∨ p.2.kind = Kind.vark) →
    ∀ p ∈ (applyDefines st defs).subroutine_table,
      p.2.kind = Kind.argk ∨ p.2.kind = Kind.vark := by
  intro defs
  induction defs with
  | nil => intro st h; exact h
  | cons d rest ih =>
    intro st h
    obtain ⟨n, t, k⟩ := d
    rw [applyDefines]
    refine ih _ ?_
    cases k with
    | statick => exact h
    | fieldk => exact h
    | argk =>
      intro p hp
      rcases List.mem_cons.mp hp with rfl | hp
      · exact Or.inl rfl
      · exact h p hp
    | vark =>
      intro p hp
      rcases List.mem_cons.mp hp with rfl | hp
      · exact Or.inr rfl
      · exact h p hp

theorem dictGet_some_mem {α : Type} {d : Dict α} {k : String} {v : α}
    (h : dictGet d k = some v) : (k, v) ∈ d := by
  simp only [dictGet, Option.map_eq_some'] at h
  obtain ⟨p, hp, rfl⟩ := h
  have hm := List.mem_of_find?_eq_some hp
  have hk := List.find?_some hp
  simp only [decide_eq_true_eq] at hk
  obtain ⟨a, b⟩ := p
  subst hk
  exact hm

/-- **C5**: for a subroutine declared with keyword `function`,
`compile_subroutine` resets the symbol table with fields disabled, and then —
whatever `define` calls the compilation of the parameter list and body makes —
symbol lookup never resolves to a class-level `FIELD` entry: a name bound
only to a field fails to resolve, while subroutine-scope (`ARG`/`VAR`)
entries and non-field (`STATIC`) class entries remain visible. -/
theorem claim_C5_function_hides_fields (st0 : SymbolTable)
    (defs : List (String × String × Kind)) :
    enableFieldsFor "function" = false ∧
    (∀ name e,
      (applyDefines (st0.resetSubroutine (enableFieldsFor "function"))
        defs).getEntry name = some e → e.kind ≠ Kind.fieldk) ∧
    (∀ name e,
      dictGet (applyDefines (st0.resetSubroutine (enableFieldsFor "function"))
        defs).class_table name = some e → e.kind = Kind.fieldk →
      dictGet (applyDefines (st0.resetSubroutine (enableFieldsFor "function"))
        defs).subroutine_table name = none →
      (applyDefines (st0.resetSubroutine (enableFieldsFor "function"))
        defs).getEntry name = none) ∧
    (∀ name e,
      dictGet (applyDefines (st0.resetSubroutine (enableFieldsFor "function"))
        defs).subroutine_table name = some e →
      (applyDefines (st0.resetSubroutine (enableFieldsFor "function"))
        defs).getEntry name = some e) ∧
    (∀ name e,
      dictGet (applyDefines (st0.resetSubroutine (enableFieldsFor "function"))
        defs).subroutine_table name = none →
      dictGet (applyDefines (st0.resetSubroutine (enableFieldsFor "function"))
        defs).class_table name = some e → e.kind ≠ Kind.fieldk →
      (applyDefines (st0.resetSubroutine (enableFieldsFor "function"))
        defs).getEntry name = some e) := by
  have hef : enableFieldsFor "function" = false := rfl
  set st := applyDefines (st0.resetSubroutine (enableFieldsFor "function")) defs
    with hst
  have hen : st.enable_fields = false := by
    rw [hst, applyDefines_enable_fields]; rfl
  have hsub : ∀ p ∈ st.subroutine_table,
      p.2.kind = Kind.argk ∨ p.2.kind = Kind.vark := by
    rw [hst]
    refine applyDefines_sub_kinds defs _ ?_
    intro p hp
    exact absurd hp (List.not_mem_nil p)
  refine ⟨hef, ?_, ?_, ?_, ?_⟩
  · intro name e hget
    rw [SymbolTable.getEntry] at hget
    cases hs : dictGet st.subroutine_table name with
    | some e' =>
      simp only [hs, Option.some.injEq] at hget
      subst hget
      have hke := hsub (name, e') (dictGet_some_mem hs)
      intro hf
      rw [hf] at hke
      rcases hke with hke | hke <;> cases hke
    | none =>
      simp only [hs] at hget
      cases hcl : dictGet st.class_table name with
      | some e' =>
        simp only [hcl] at hget
        by_cases hf : e'.kind = Kind.fieldk ∧ st.enable_fields = false
        · rw [if_neg (not_not_intro hf)] at hget; cases hget
        · rw [if_pos hf] at hget
          injection hget with he
          subst he
          intro hk
          exact hf ⟨hk, hen⟩
      | none => simp only [hcl] at hget; cases hget
  · intro name e hcl hk hs
    rw [SymbolTable.getEntry]
    simp only [hs, hcl]
    rw [if_neg (not_not_intro ⟨hk, hen⟩)]
  · intro name e hs
    rw [SymbolTable.getEntry]
    simp only [hs]
  · intro name e hs hcl hk
    rw [SymbolTable.getEntry]
    simp only [hs, hcl]
    rw [if_pos (fun hcon => hk hcon.1)]

theorem claim_C5_witness :
    ((applyDefines ((SymbolTable.init.define "f" "int" Kind.fieldk).define
      "s" "int" Kind.statick |>.resetSubroutine (enableFieldsFor "function"))
      [("a", "int", Kind.argk)]).getEntry "f" = none) ∧
    ((applyDefines ((SymbolTable.init.define "f" "int" Kind.fieldk).define
      "s" "int" Kind.statick |>.resetSubroutine (enableFieldsFor "function"))
      [("a", "int", Kind.argk)]).getEntry "s" =
      some ⟨"s", "int", Kind.statick, 0⟩) := by
  have h := claim_C5_function_hides_fields
    ((SymbolTable.init.define "f" "int" Kind.fieldk).define
      "s" "int" Kind.statick) [("a", "int", Kind.argk)]
  exact ⟨h.2.2.1 "f" ⟨"f", "int", Kind.fieldk, 0⟩ rfl rfl rfl,
    h.2.2.2.2 "s" ⟨"s", "int", Kind.statick, 0⟩ rfl rfl (by decide)⟩

theorem readStrBody_spec :
    ∀ (l v r : List Char), readStrBody l = some (v, r) →
    l = v ++ '"' :: r ∧ '"' ∉ v := by
  intro l
  induction l with
  | nil => intro v r h; cases h
  | cons c rest ih =>
    intro v r h
    rw [readStrBody] at h
    by_cases hc : c = '"'
    · rw [if_pos hc] at h
      simp only [Option.some.injEq, Prod.mk.injEq] at h
      obtain ⟨rfl, rfl⟩ := h
      subst hc
      exact ⟨rfl, List.not_mem_nil _⟩
    · rw [if_neg hc] at h
      cases hrec : readStrBody rest with
      | none => rw [hrec] at h; simp at h
      | some vr =>
        obtain ⟨v', r'⟩ := vr
        rw [hrec] at h
        simp only [Option.map_some', Option.some.injEq, Prod.mk.injEq] at h
        obtain ⟨rfl, rfl⟩ := h
        obtain ⟨hl, hnm⟩ := ih v' r' hrec
        rw [hl]
        refine ⟨rfl, ?_⟩
        intro hm
        rcases List.mem_cons.mp hm with he | hm
        · exact hc he.symm
        · exact hnm hm

/-- **C9** (amended): a string-constant token produced by
`_read_str_constant` is delimited by a pair of `"` characters and its value
contains no `"` character; newlines, however, are *not* excluded (see the
counterexample), contrary to the original claim. -/
theorem claim_C9_string_token (input : List Char) (val : String)
    (rest : List Char) (h : readStrConstant input = some (val, rest)) :
    input = '"' :: val.data ++ '"' :: rest ∧ '"' ∉ val.data := by
  cases input with
  | nil => cases h
  | cons c body =>
    rw [readStrConstant] at h
    by_cases hc : c = '"'
    · rw [if_pos hc] at h
      subst hc
      cases hb : readStrBody body with
      | none => rw [hb] at h; simp at h
      | some vr =>
        obtain ⟨v, r⟩ := vr
        rw [hb] at h
        simp only [Option.map_some', Option.some.injEq, Prod.mk.injEq] at h
        obtain ⟨rfl, rfl⟩ := h
        obtain ⟨hl, hnm⟩ := readStrBody_spec body v r hb
        rw [hl]
        exact ⟨rfl, hnm⟩
    · rw [if_neg hc] at h
      cases h

/-- **C9** counterexample: the tokenizer accepts a newline inside a string
constant; the produced token value contains a newline character. -/
theorem claim_C9_counterexample :
    readStrConstant ['"', 'a', '\n', 'b', '"'] = some ("a\nb", []) ∧
    '\n' ∈ ("a\nb" : String).data := ⟨rfl, by decide⟩

theorem claim_C9_witness :
    ('"' :: 'a' :: '\n' :: 'b' :: '"' :: [] =
      '"' :: ("a\nb" : String).data ++ '"' :: []) ∧
    '"' ∉ ("a\nb" : String).data :=
  claim_C9_string_token ['"', 'a', '\n', 'b', '"'] "a\nb" [] rfl

/-- **C8**: evaluation of the code at the claim's failing scenario.  A
lexical error at the very first token of `B.jack` is raised while
`CompilationEngine` is constructed, *outside* the per-file `try` block in
`JackCompiler.main`, so it aborts the whole run: only `A.jack` is processed
and `C.jack` is never compiled, whatever `compile_class` does — contradicting
the claim that an error in one file does not abort processing of siblings. -/
theorem claim_C8_first_token_abort
    (compile : List Char → Except String Unit) :
    (processFiles compile [("A.jack", "class A {}".data),
      ("B.jack", "#".data), ("C.jack", "class C {}".data)]).2 =
      some "Unkown Token: #" ∧
    (processFiles compile [("A.jack", "class A {}".data),
      ("B.jack", "#".data), ("C.jack", "class C {}".data)]).1.length = 1 := by
  have htokA : tokFirst "class A {}".data = some (.ok ()) := rfl
  have htokB : tokFirst "#".data = some (.error "Unkown Token: #") := rfl
  cases hc : compile "class A {}".data with
  | error e =>
    have hres : processFiles compile [("A.jack", "class A {}".data),
        ("B.jack", "#".data), ("C.jack", "class C {}".data)] =
        ([("A.jack", some e)], some "Unkown Token: #") := by
      simp only [processFiles, htokA, htokB, hc]
    rw [hres]
    exact ⟨rfl, rfl⟩
  | ok u =>
    have hres : processFiles compile [("A.jack", "class A {}".data),
        ("B.jack", "#".data), ("C.jack", "class C {}".data)] =
        ([("A.jack", none)], some "Unkown Token: #") := by
      simp only [processFiles, htokA, htokB, hc]
    rw [hres]
    exact ⟨rfl, rfl⟩

theorem claim_C8_witness :
    (processFiles (fun _ => Except.ok ())
      [("A.jack", "class A {}".data), ("B.jack", "#".data),
       ("C.jack", "class C {}".data)]).2 = some "Unkown Token: #" ∧
    (processFiles (fun _ => Except.ok ())
      [("A.jack", "class A {}".data), ("B.jack", "#".data),
       ("C.jack", "class C {}".data)]).1.length = 1 :=
  claim_C8_first_token_abort (fun _ => Except.ok ())

end N2T.Jack

namespace N2T.VM

theorem isPySpace_eq_false_of_isDigit {c : Char} (h : c.isDigit = true) :
    isPySpace c = false := by
  by_contra hc
  rw [Bool.not_eq_false] at hc
  simp only [isPySpace, List.mem_cons, List.mem_singleton, decide_eq_true_eq,
    List.not_mem_nil, or_false] at hc
  rcases hc with rfl | rfl | rfl | rfl | rfl | rfl <;> simp [Char.isDigit] at h

theorem dropWhile_space_of_digits {ds : List Char}
    (h : ∀ c ∈ ds, c.isDigit = true) : ds.dropWhile isPySpace = ds := by
  cases ds with
  | nil => rfl
  | cons c rest =>
    rw [List.dropWhile_cons,
      isPySpace_eq_false_of_isDigit (h c (List.mem_cons_self _ _))]
    simp

theorem takeWhile_digits_of_digits {ds : List Char}
    (h : ∀ c ∈ ds, c.isDigit = true) : ds.takeWhile Char.isDigit = ds := by
  induction ds with
  | nil => rfl
  | cons c rest ih =>
    rw [List.takeWhile_cons, h c (List.mem_cons_self _ _),
      ih (fun x hx => h x (List.mem_cons_of_mem _ hx))]
    simp

theorem dropWhile_digits_of_digits {ds : List Char}
    (h : ∀ c ∈ ds, c.isDigit = true) : ds.dropWhile Char.isDigit = [] := by
  induction ds with
  | nil => rfl
  | cons c rest ih =>
    rw [List.dropWhile_cons, h c (List.mem_cons_self _ _)]
    simp only [if_pos]
    exact ih (fun x hx => h x (List.mem_cons_of_mem _ hx))

theorem matchArith_eq_none_of_long {l : List Char} (h : 3 < l.length) :
    matchArith l = none := by
  rw [matchArith, List.find?_eq_none]
  intro w hw hpw
  rw [decide_eq_true_eq] at hpw
  have := congrArg List.length hpw
  fin_cases hw <;> simp at this <;> omega

theorem ws1_space_digits {ds : List Char}
    (hds : ∀ c ∈ ds, c.isDigit = true) : ws1 (' ' :: ds) = some ds := by
  rw [ws1, if_pos (by decide), dropWhile_space_of_digits hds]

theorem wsDigitsEnd_space_digits {ds : List Char} (hne : ds ≠ [])
    (hds : ∀ c ∈ ds, c.isDigit = true) : wsDigitsEnd (' ' :: ds) = some ds := by
  rw [wsDigitsEnd]
  simp only [ws1_space_digits hds]
  rw [takeWhile_digits_of_digits hds, dropWhile_digits_of_digits hds,
    if_pos ⟨hne, rfl⟩]

theorem findSeg_push_constant {ds : List Char} (hne : ds ≠ [])
    (hds : ∀ c ∈ ds, c.isDigit = true) :
    findSeg pushSegs ("constant ".data ++ ds) = some ("constant".data, ds) := by
  show (match wsDigitsEnd (' ' :: ds) with
    | some d => some ("constant".data, d)
    | none => findSeg ["this".data, "that".data, "pointer".data, "temp".data]
        ("constant ".data ++ ds)) = some ("constant".data, ds)
  rw [wsDigitsEnd_space_digits hne hds]

/-- **C10**: `push constant i` parses as a push command for every index `i`
(a nonempty digit string), while `pop constant i` matches none of the
parser's nine patterns and is rejected as an unparseable command (the fatal
`RuntimeError`); `constant` is the only segment in the push alternation that
is missing from the pop alternation. -/
theorem claim_C10_pop_constant_rejected (ds : List Char) (hne : ds ≠ [])
    (hds : ∀ c ∈ ds, c.isDigit = true) :
    parseCmd ("push constant ".data ++ ds) =
      some (.push "constant" (digitsToNat ds)) ∧
    parseCmd ("pop constant ".data ++ ds) = none ∧
    "constant".data ∈ pushSegs ∧ "constant".data ∉ popSegs ∧
    (∀ s, s ≠ "constant".data → (s ∈ pushSegs ↔ s ∈ popSegs)) := by
  refine ⟨?_, ?_, by decide, by decide, ?_⟩
  · have harith : matchArith ("push constant ".data ++ ds) = none :=
      matchArith_eq_none_of_long (by simp)
    have hpp : matchPushPop "push".data pushSegs
        ("push constant ".data ++ ds) =
        some ("constant", digitsToNat ds) := by
      show (match findSeg pushSegs ("constant ".data ++ ds) with
        | none => none
        | some (seg, d) => some (⟨seg⟩, digitsToNat d)) =
        some ("constant", digitsToNat ds)
      rw [findSeg_push_constant hne hds]
    simp only [parseCmd, harith, hpp]
  · have harith : matchArith ("pop constant ".data ++ ds) = none :=
      matchArith_eq_none_of_long (by simp)
    simp only [parseCmd, harith]
    rfl
  · intro s hs
    constructor
    · intro hmem
      rcases (by simpa [pushSegs] using hmem :
        s = "argument".data ∨ s = "local".data ∨ s = "static".data ∨
        s = "constant".data ∨ s = "this".data ∨ s = "that".data ∨
        s = "pointer".data ∨ s = "temp".data) with
        rfl | rfl | rfl | rfl | rfl | rfl | rfl | rfl <;>
        first
        | exact absurd rfl hs
        | decide
    · intro hmem
      rcases (by simpa [popSegs] using hmem :
        s = "argument".data ∨ s = "local".data ∨ s = "static".data ∨
        s = "this".data ∨ s = "that".data ∨ s = "pointer".data ∨
        s = "temp".data) with
        rfl | rfl | rfl | rfl | rfl | rfl | rfl <;> decide

theorem claim_C10_witness :
    parseCmd ("push constant ".data ++ ['5']) =
      some (.push "constant" (digitsToNat ['5'])) ∧
    parseCmd ("pop constant ".data ++ ['5']) = none :=
  ⟨(claim_C10_pop_constant_rejected ['5'] (by decide) (by decide)).1,
   (claim_C10_pop_constant_rejected ['5'] (by decide) (by decide)).2.1⟩

end N2T.VM

namespace N2T.VM

theorem writeArithmetic_fst (st : CWState) (cmd : String) :
    (writeArithmetic st cmd).1 =
      if cmd = "eq" ∨ cmd = "gt" ∨ cmd = "lt" then
        { st with cur_jump_i := st.cur_jump_i + 1 }
      else st := by
  by_cases h3 : cmd = "eq" ∨ cmd = "gt" ∨ cmd = "lt"
  · rw [if_pos h3, writeArithmetic]
    rw [if_neg (by rcases h3 with h | h | h <;> subst h <;> decide),
      if_neg (by rcases h3 with h | h | h <;> subst h <;> decide),
      if_pos h3]
  · rw [if_neg h3, writeArithmetic]
    repeat' split
    all_goals rfl

theorem writePush_fst (st : CWState) (seg : String) (i : Nat) :
    (writePush st seg i).1 = st := by
  rw [writePush]
  split
  · rfl
  split
  · rfl
  split
  · rfl
  split
  · rfl
  split <;> rfl

theorem writePop_fst (st : CWState) (seg : String) (i : Nat) :
    (writePop st seg i).1 = st := by
  rw [writePop]
  split
  · rfl
  split
  · rfl
  split
  · rfl
  split <;> rfl

end N2T.VM

namespace N2T.VM

theorem stepCmd_scope (st : CWState) (c : VMCmd)
    (h : ∀ nm k, c ≠ .func nm k) :
    (stepCmd st c).1.cur_scope = st.cur_scope := by
  cases c with
  | arith cmd => rw [stepCmd, writeArithmetic_fst]; split <;> rfl
  | push seg i => rw [stepCmd, writePush_fst]
  | pop seg i => rw [stepCmd, writePop_fst]
  | label nm => rfl
  | goto nm => rfl
  | ifgoto nm => rfl
  | func nm k => exact absurd rfl (h nm k)
  | ret => rfl
  | call nm k => rfl

theorem stepCmd_ret_mono (st : CWState) (c : VMCmd)
    (h : ∀ nm k, c ≠ .func nm k) :
    st.cur_ret_i ≤ (stepCmd st c).1.cur_ret_i := by
  cases c with
  | arith cmd => rw [stepCmd, writeArithmetic_fst]; split <;> simp
  | push seg i => rw [stepCmd, writePush_fst]
  | pop seg i => rw [stepCmd, writePop_fst]
  | label nm => exact le_rfl
  | goto nm => exact le_rfl
  | ifgoto nm => exact le_rfl
  | func nm k => exact absurd rfl (h nm k)
  | ret => exact le_rfl
  | call nm k => exact Nat.le_succ _

theorem stepCmd_func_fst (st : CWState) (nm : String) (k : Nat) :
    (stepCmd st (.func nm k)).1 =
      { st with cur_scope := some nm, cur_ret_i := 0 } := rfl

theorem stepCmd_call_fst (st : CWState) (nm : String) (k : Nat) :
    (stepCmd st (.call nm k)).1 =
      { st with cur_ret_i := st.cur_ret_i + 1 } := rfl

theorem stepCmd_jump_mono (st : CWState) (c : VMCmd) :
    st.cur_jump_i ≤ (stepCmd st c).1.cur_jump_i := by
  cases c with
  | arith cmd => rw [stepCmd, writeArithmetic_fst]; split <;> simp
  | push seg i => rw [stepCmd, writePush_fst]
  | pop seg i => rw [stepCmd, writePop_fst]
  | label nm => exact le_rfl
  | goto nm => exact le_rfl
  | ifgoto nm => exact le_rfl
  | func nm k => exact le_rfl
  | ret => exact le_rfl
  | call nm k => exact le_rfl

theorem stepCmd_cmp_jump (st : CWState) (cmd : String)
    (h : cmd = "eq" ∨ cmd = "gt" ∨ cmd = "lt") :
    (stepCmd st (.arith cmd)).1.cur_jump_i = st.cur_jump_i + 1 := by
  rw [stepCmd, writeArithmetic_fst, if_pos h]

theorem translateCmds_append (st : CWState) (l1 l2 : List VMCmd) :
    translateCmds st (l1 ++ l2) =
      ((translateCmds (translateCmds st l1).1 l2).1,
       (translateCmds st l1).2 ++ (translateCmds (translateCmds st l1).1 l2).2) := by
  induction l1 generalizing st with
  | nil => simp [translateCmds]
  | cons c rest ih =>
    rw [List.cons_append, translateCmds, translateCmds, ih]
    simp [List.append_assoc]

theorem translateCmds_scope_of_no_func (st : CWState) (l : List VMCmd)
    (h : ∀ nm k, VMCmd.func nm k ∉ l) :
    (translateCmds st l).1.cur_scope = st.cur_scope ∧
    st.cur_ret_i ≤ (translateCmds st l).1.cur_ret_i := by
  induction l generalizing st with
  | nil => exact ⟨rfl, le_rfl⟩
  | cons c rest ih =>
    have hc : ∀ nm k, c ≠ .func nm k := by
      intro nm k he
      exact h nm k (he ▸ List.mem_cons_self _ _)
    have hr : ∀ nm k, VMCmd.func nm k ∉ rest := by
      intro nm k hm
      exact h nm k (List.mem_cons_of_mem _ hm)
    rw [translateCmds]
    obtain ⟨h1, h2⟩ := ih (stepCmd st c).1 hr
    refine ⟨by rw [h1, stepCmd_scope st c hc], ?_⟩
    exact le_trans (stepCmd_ret_mono st c hc) h2

theorem translateCmds_jump_mono (st : CWState) (l : List VMCmd) :
    st.cur_jump_i ≤ (translateCmds st l).1.cur_jump_i := by
  induction l generalizing st with
  | nil => exact le_rfl
  | cons c rest ih =>
    rw [translateCmds]
    exact le_trans (stepCmd_jump_mono st c) (ih (stepCmd st c).1)

theorem translateCmds_scope_source (st : CWState) (l : List VMCmd) :
    (translateCmds st l).1.cur_scope = st.cur_scope ∨
    ∃ (i : Nat) (nm : String) (k : Nat), l[i]? = some (VMCmd.func nm k) ∧
      (translateCmds st l).1.cur_scope = some nm := by
  induction l generalizing st with
  | nil => exact Or.inl rfl
  | cons c rest ih =>
    rw [translateCmds]
    rcases ih (stepCmd st c).1 with h | ⟨i, nm, k, hi, hs⟩
    · by_cases hc : ∃ nm k, c = VMCmd.func nm k
      · obtain ⟨nm, k, rfl⟩ := hc
        refine Or.inr ⟨0, nm, k, List.getElem?_cons_zero, ?_⟩
        rw [h, stepCmd_func_fst]
      · push_neg at hc
        refine Or.inl ?_
        rw [h, stepCmd_scope st c hc]
    · exact Or.inr ⟨i + 1, nm, k, by rwa [List.getElem?_cons_succ], hs⟩

theorem exists_last_func (l : List VMCmd)
    (h : ∃ nm k, VMCmd.func nm k ∈ l) :
    ∃ l1 nm k l2, l = l1 ++ VMCmd.func nm k :: l2 ∧
      ∀ nm' k', VMCmd.func nm' k' ∉ l2 := by
  induction l with
  | nil => obtain ⟨nm, k, hm⟩ := h; exact absurd hm (List.not_mem_nil _)
  | cons c rest ih =>
    by_cases hr : ∃ nm k, VMCmd.func nm k ∈ rest
    · obtain ⟨l1, nm, k, l2, heq, hfree⟩ := ih hr
      exact ⟨c :: l1, nm, k, l2, by rw [heq, List.cons_append], hfree⟩
    · push_neg at hr
      obtain ⟨nm, k, hm⟩ := h
      rcases List.mem_cons.mp hm with rfl | hm
      · exact ⟨[], nm, k, rest, rfl, fun nm' k' => hr nm' k'⟩
      · exact absurd hm (hr nm k)

end N2T.VM

namespace N2T.VM

theorem retLabel_data (st : CWState) :
    (retLabel st).data = (pyStrOpt st.cur_scope).data ++
      '$' :: 'r' :: 'e' :: 't' :: '.' :: (natStr st.cur_ret_i).data := by
  show ((pyStrOpt st.cur_scope ++ "$ret.") ++ natStr st.cur_ret_i).data = _
  rw [String.data_append, String.data_append]
  rw [show ("$ret." : String).data = ['$', 'r', 'e', 't', '.'] from rfl]
  simp

theorem retLabel_inj {s1 s2 : CWState}
    (h1 : '$' ∉ (pyStrOpt s1.cur_scope).data)
    (h2 : '$' ∉ (pyStrOpt s2.cur_scope).data)
    (h : retLabel s1 = retLabel s2) :
    pyStrOpt s1.cur_scope = pyStrOpt s2.cur_scope ∧
      s1.cur_ret_i = s2.cur_ret_i := by
  have hd := congrArg String.data h
  rw [retLabel_data, retLabel_data] at hd
  obtain ⟨hsc, htl⟩ := append_sep_inj hd h1 h2
  refine ⟨String.ext hsc, ?_⟩
  injection htl with _ htl
  injection htl with _ htl
  injection htl with _ htl
  injection htl with _ htl
  exact natStr_injective (String.ext htl)

theorem getElem?_take_some {α : Type} {l : List α} {n i : Nat} {x : α}
    (h : (l.take n)[i]? = some x) : i < n ∧ l[i]? = some x := by
  rw [List.getElem?_take] at h
  by_cases hi : i < n
  · rw [if_pos hi] at h; exact ⟨hi, h⟩
  · rw [if_neg hi] at h; cases h

theorem translateCmds_fst_append (st : CWState) (l1 l2 : List VMCmd) :
    (translateCmds st (l1 ++ l2)).1 =
      (translateCmds (translateCmds st l1).1 l2).1 := by
  rw [translateCmds_append]

theorem translateCmds_fst_cons (st : CWState) (c : VMCmd) (l : List VMCmd) :
    (translateCmds st (c :: l)).1 = (translateCmds (stepCmd st c).1 l).1 := by
  rw [translateCmds]

/-- The scope at any point of a translation started from `initState` is
either the initial `none` or the name of some `function` command already
seen. -/
theorem scope_source_take (debug : Bool) (cmds : List VMCmd) (m : Nat) :
    (translateCmds (initState debug) (cmds.take m)).1.cur_scope = none ∨
    ∃ (i : Nat) (nm : String) (k : Nat), i < m ∧
      cmds[i]? = some (VMCmd.func nm k) ∧
      (translateCmds (initState debug) (cmds.take m)).1.cur_scope = some nm := by
  rcases translateCmds_scope_source (initState debug) (cmds.take m) with h |
    ⟨i, nm, k, hi, hs⟩
  · exact Or.inl h
  · obtain ⟨hlt, hi'⟩ := getElem?_take_some hi
    exact Or.inr ⟨i, nm, k, hlt, hi', hs⟩

theorem scope_dollar_free (debug : Bool) (cmds : List VMCmd)
    (hdollar : ∀ (i : Nat) (nm : String) (k : Nat),
      cmds[i]? = some (VMCmd.func nm k) → '$' ∉ nm.data) (m : Nat) :
    '$' ∉ (pyStrOpt
      (translateCmds (initState debug) (cmds.take m)).1.cur_scope).data := by
  rcases scope_source_take debug cmds m with h | ⟨i, nm, k, _, hi, hs⟩
  · rw [h]; decide
  · rw [hs]; exact hdollar i nm k hi

/-- **C1** (amended: uniqueness of the return-site labels additionally needs
the `function` commands of the translation to declare pairwise distinct,
`'$'`-free names none of which is the string `"None"`; the parser guarantees
`'$'`-freeness, but the source accepts duplicate `function` declarations and
those produce colliding return-site labels — see the counterexample): for
every `call F n`, the emitted block pushes the return-site label
`<scope>$ret.<k>` as a literal address, then the saved LCL, ARG, THIS, THAT
in that order, sets `ARG = SP - 5 - n` and `LCL = SP`, jumps to `F`, and
defines the return-site label immediately after the jump, at the end of the
block; the return-site counter is reset to 0 by every `function` command and
incremented by every `call`; each call's block appears verbatim at its
position in the whole translation's output; and any two distinct `call`
commands of one translation get distinct return-site labels. -/
theorem claim_C1_call_protocol (debug : Bool) (cmds : List VMCmd)
    (hnames : ∀ (i j : Nat) (nmi nmj : String) (ki kj : Nat), i ≠ j →
      cmds[i]? = some (VMCmd.func nmi ki) →
      cmds[j]? = some (VMCmd.func nmj kj) → nmi ≠ nmj)
    (hdollar : ∀ (i : Nat) (nm : String) (k : Nat),
      cmds[i]? = some (VMCmd.func nm k) → '$' ∉ nm.data)
    (hnone : ∀ (i : Nat) (nm : String) (k : Nat),
      cmds[i]? = some (VMCmd.func nm k) → nm ≠ "None") :
    (∀ (st : CWState) (F : String) (n : Nat),
      (writeCall st F n).2 =
        (if st.debug = true then ["// call " ++ F ++ " " ++ natStr n] else [])
        ++ ["@" ++ retLabel st, "D=A"] ++ pushD
        ++ ["@LCL", "D=M"] ++ pushD ++ ["@ARG", "D=M"] ++ pushD
        ++ ["@THIS", "D=M"] ++ pushD ++ ["@THAT", "D=M"] ++ pushD
        ++ ["@SP", "D=M", "@" ++ natStr (5 + n), "D=D-A", "@ARG", "M=D",
            "@SP", "D=M", "@LCL", "M=D"]
        ++ ["@" ++ F, "0;JMP", "(" ++ retLabel st ++ ")"] ∧
      ∃ pre, (writeCall st F n).2 =
        pre ++ ["@" ++ F, "0;JMP", "(" ++ retLabel st ++ ")"]) ∧
    (∀ (st : CWState) (F : String) (n : Nat),
      (stepCmd st (VMCmd.func F n)).1.cur_ret_i = 0 ∧
      (stepCmd st (VMCmd.call F n)).1.cur_ret_i = st.cur_ret_i + 1) ∧
    (∀ (p : Nat) (F : String) (n : Nat),
      cmds[p]? = some (VMCmd.call F n) →
      (translateCmds (initState debug) cmds).2 =
        (translateCmds (initState debug) (cmds.take p)).2 ++
        (writeCall (translateCmds (initState debug) (cmds.take p)).1 F n).2 ++
        (translateCmds (stepCmd (translateCmds (initState debug)
          (cmds.take p)).1 (VMCmd.call F n)).1 (cmds.drop (p + 1))).2) ∧
    (∀ (p q : Nat) (Fp Fq : String) (np nq : Nat), p < q →
      cmds[p]? = some (VMCmd.call Fp np) →
      cmds[q]? = some (VMCmd.call Fq nq) →
      retLabel (translateCmds (initState debug) (cmds.take p)).1 ≠
      retLabel (translateCmds (initState debug) (cmds.take q)).1) := by
  refine ⟨?_, ?_, ?_, ?_⟩
  · intro st F n
    refine ⟨by simp [writeCall, pushD], ?_⟩
    refine ⟨(if st.debug = true then
        ["// call " ++ F ++ " " ++ natStr n] else [])
      ++ ["@" ++ retLabel st, "D=A"] ++ pushD
      ++ ["@LCL", "D=M"] ++ pushD ++ ["@ARG", "D=M"] ++ pushD
      ++ ["@THIS", "D=M"] ++ pushD ++ ["@THAT", "D=M"] ++ pushD
      ++ ["@SP", "D=M", "@" ++ natStr (5 + n), "D=D-A", "@ARG", "M=D",
          "@SP", "D=M", "@LCL", "M=D"], ?_⟩
    simp [writeCall, pushD]
  · intro st F n
    exact ⟨rfl, rfl⟩
  · intro p F n hp
    have hlt : p < cmds.length := by
      by_contra hge
      rw [List.getElem?_eq_none (by omega)] at hp
      cases hp
    have hcp : cmds[p] = VMCmd.call F n := by
      have hge := List.getElem?_eq_getElem hlt
      rw [hge] at hp
      injection hp
    have hdecomp : cmds = cmds.take p ++ VMCmd.call F n :: cmds.drop (p + 1) := by
      conv_lhs => rw [← List.take_append_drop p cmds]
      rw [List.drop_eq_getElem_cons hlt, hcp]
    calc (translateCmds (initState debug) cmds).2
        = (translateCmds (initState debug)
            (cmds.take p ++ VMCmd.call F n :: cmds.drop (p + 1))).2 := by
          rw [← hdecomp]
      _ = _ := by
          rw [translateCmds_append]
          show (translateCmds (initState debug) (cmds.take p)).2 ++
            (translateCmds (translateCmds (initState debug) (cmds.take p)).1
              (VMCmd.call F n :: cmds.drop (p + 1))).2 = _
          rw [translateCmds]
          show _ ++ ((stepCmd _ (VMCmd.call F n)).2 ++ _) = _
          rw [← List.append_assoc]
          rfl
  · intro p q Fp Fq np nq hpq hp hq heq
    have hdp := scope_dollar_free debug cmds hdollar p
    have hdq := scope_dollar_free debug cmds hdollar q
    obtain ⟨hscopes, hrets⟩ := retLabel_inj hdp hdq heq
    have htp1 : cmds.take (p + 1) = cmds.take p ++ [VMCmd.call Fp np] := by
      rw [List.take_succ, hp]
      rfl
    have htq : cmds.take q =
        (cmds.take p ++ [VMCmd.call Fp np]) ++
          (cmds.drop (p + 1)).take (q - (p + 1)) := by
      rw [← htp1, ← List.take_add]
      congr 1
      omega
    have hsq2 : (translateCmds (initState debug) (cmds.take q)).1 =
        (translateCmds
          (stepCmd (translateCmds (initState debug) (cmds.take p)).1
            (VMCmd.call Fp np)).1
          ((cmds.drop (p + 1)).take (q - (p + 1)))).1 := by
      rw [htq, translateCmds_fst_append, translateCmds_fst_append,
        translateCmds_fst_cons]
      rfl
    have hmid_idx : ∀ (r : Nat) (x : VMCmd),
        ((cmds.drop (p + 1)).take (q - (p + 1)))[r]? = some x →
        cmds[p + 1 + r]? = some x := by
      intro r x hr
      obtain ⟨-, hr'⟩ := getElem?_take_some hr
      rwa [List.getElem?_drop] at hr'
    by_cases hf : ∃ nm k, VMCmd.func nm k ∈
        (cmds.drop (p + 1)).take (q - (p + 1))
    · obtain ⟨m1, B, kb, m2, hmeq, hfree⟩ := exists_last_func _ hf
      have hsqscope :
          (translateCmds (initState debug) (cmds.take q)).1.cur_scope =
            some B := by
        rw [hsq2, hmeq, translateCmds_fst_append, translateCmds_fst_cons]
        have hnf : ∀ nm' k', VMCmd.func nm' k' ∉ m2 := hfree
        obtain ⟨hsc, -⟩ := translateCmds_scope_of_no_func _ m2 hnf
        rw [hsc, stepCmd_func_fst]
      have hjB : cmds[p + 1 + m1.length]? = some (VMCmd.func B kb) := by
        apply hmid_idx
        rw [hmeq, List.getElem?_append_right le_rfl]
        simp
      rcases scope_source_take debug cmds p with hsnone |
        ⟨i, A, ka, hiltp, hiA, hsA⟩
      · rw [hsnone, hsqscope] at hscopes
        exact hnone (p + 1 + m1.length) B kb hjB (by
          have : ("None" : String) = B := hscopes
          exact this.symm)
      · rw [hsA, hsqscope] at hscopes
        have hAB : A = B := hscopes
        exact hnames i (p + 1 + m1.length) A B ka kb (by omega) hiA hjB hAB
    · push_neg at hf
      obtain ⟨-, hret⟩ := translateCmds_scope_of_no_func
        (stepCmd (translateCmds (initState debug) (cmds.take p)).1
          (VMCmd.call Fp np)).1
        ((cmds.drop (p + 1)).take (q - (p + 1))) hf
      rw [← hsq2] at hret
      rw [stepCmd_call_fst] at hret
      simp only [] at hret
      omega

end N2T.VM

namespace N2T.VM

/-- **C1** counterexample: the parser accepts duplicate `function`
declarations, and re-declaring a function resets the return-site counter
under the same scope name, so two different `call` commands of one
translation can receive the *same* return-site label `Foo.bar$ret.0` —
the claimed unconditional uniqueness fails. -/
theorem claim_C1_counterexample :
    ([VMCmd.func "Foo.bar" 0, VMCmd.call "X.y" 0, VMCmd.func "Foo.bar" 0,
        VMCmd.call "X.y" 0] : List VMCmd)[1]? = some (VMCmd.call "X.y" 0) ∧
    ([VMCmd.func "Foo.bar" 0, VMCmd.call "X.y" 0, VMCmd.func "Foo.bar" 0,
        VMCmd.call "X.y" 0] : List VMCmd)[3]? = some (VMCmd.call "X.y" 0) ∧
    retLabel (translateCmds (initState false)
      ([VMCmd.func "Foo.bar" 0, VMCmd.call "X.y" 0, VMCmd.func "Foo.bar" 0,
        VMCmd.call "X.y" 0].take 1)).1 =
    retLabel (translateCmds (initState false)
      ([VMCmd.func "Foo.bar" 0, VMCmd.call "X.y" 0, VMCmd.func "Foo.bar" 0,
        VMCmd.call "X.y" 0].take 3)).1 :=
  ⟨rfl, rfl, rfl⟩

theorem claim_C1_witness :
    retLabel (translateCmds (initState false)
      ([VMCmd.func "Foo.bar" 0, VMCmd.call "X.y" 1,
        VMCmd.call "X.y" 0].take 1)).1 ≠
    retLabel (translateCmds (initState false)
      ([VMCmd.func "Foo.bar" 0, VMCmd.call "X.y" 1,
        VMCmd.call "X.y" 0].take 2)).1 := by
  have h0 : ∀ (m : Nat) (nm : String) (kk : Nat),
      ([VMCmd.func "Foo.bar" 0, VMCmd.call "X.y" 1,
        VMCmd.call "X.y" 0] : List VMCmd)[m]? = some (VMCmd.func nm kk) →
      m = 0 ∧ nm = "Foo.bar" := by
    intro m nm kk hm
    match m with
    | 0 =>
      simp only [List.getElem?_cons_zero, Option.some.injEq] at hm
      refine ⟨rfl, ?_⟩
      injection hm.symm
    | 1 => simp at hm
    | 2 => simp at hm
    | mm + 3 =>
      rw [List.getElem?_eq_none (by simp)] at hm
      cases hm
  refine (claim_C1_call_protocol false
    [VMCmd.func "Foo.bar" 0, VMCmd.call "X.y" 1, VMCmd.call "X.y" 0]
    ?_ ?_ ?_).2.2.2 1 2 "X.y" "X.y" 1 0 (by omega) rfl rfl
  · intro i j nmi nmj ki kj hij hi hj
    have hi0 := (h0 i nmi ki hi).1
    have hj0 := (h0 j nmj kj hj).1
    omega
  · intro i nm k hi
    rw [(h0 i nm k hi).2]
    decide
  · intro i nm k hi
    rw [(h0 i nm k hi).2]
    decide

end N2T.VM
namespace N2T.Hack

theorem wrap16_id {z : Int} (h1 : -32768 ≤ z) (h2 : z ≤ 32767) :
    wrap16 z = z := by
  unfold wrap16
  omega

theorem cmpLabel_data (k : Nat) :
    ("cmp" ++ natStr k).data = 'c' :: 'm' :: 'p' :: (natStr k).data := by
  rw [String.data_append]
  rfl

theorem cmpEndLabel_data (k : Nat) :
    ("cmp" ++ natStr k ++ "end").data =
      'c' :: 'm' :: 'p' :: ((natStr k).data ++ ['e', 'n', 'd']) := by
  rw [String.data_append, String.data_append]
  rfl

theorem natStr_ne_append_end (a b : Nat) :
    (natStr a).data ≠ (natStr b).data ++ ['e', 'n', 'd'] := by
  intro h
  have hd : 'd' ∈ (natStr a).data := by
    rw [h]
    simp
  exact absurd (mem_natStr_isDigit hd) (by decide)

theorem cmpLabel_ne (a b : Nat) (h : a ≠ b) :
    ("cmp" ++ natStr a : String) ≠ "cmp" ++ natStr b := by
  intro he
  have hd := congrArg String.data he
  rw [cmpLabel_data, cmpLabel_data] at hd
  injection hd with _ hd
  injection hd with _ hd
  injection hd with _ hd
  exact h (natStr_injective (String.ext hd))

theorem cmpLabel_ne_end (a b : Nat) :
    ("cmp" ++ natStr a : String) ≠ "cmp" ++ natStr b ++ "end" := by
  intro he
  have hd := congrArg String.data he
  rw [cmpLabel_data, cmpEndLabel_data] at hd
  injection hd with _ hd
  injection hd with _ hd
  injection hd with _ hd
  exact natStr_ne_append_end a b hd

theorem cmpEndLabel_ne (a b : Nat) (h : a ≠ b) :
    ("cmp" ++ natStr a ++ "end" : String) ≠ "cmp" ++ natStr b ++ "end" := by
  intro he
  have hd := congrArg String.data he
  rw [cmpEndLabel_data, cmpEndLabel_data] at hd
  injection hd with _ hd
  injection hd with _ hd
  injection hd with _ hd
  exact cmpLabel_ne a b h (String.ext (by
    rw [cmpLabel_data, cmpLabel_data]
    exact congrArg (fun l => 'c' :: 'm' :: 'p' :: l)
      (List.append_cancel_right hd)))

theorem cmpLabel_ne_SP (k : Nat) : ("cmp" ++ natStr k : String) ≠ "SP" := by
  intro he
  have hd := congrArg String.data he
  rw [cmpLabel_data, show ("SP" : String).data = ['S', 'P'] from rfl] at hd
  injection hd with h1 _
  exact absurd h1 (by decide)

theorem cmpEndLabel_ne_SP (k : Nat) :
    ("cmp" ++ natStr k ++ "end" : String) ≠ "SP" := by
  intro he
  have hd := congrArg String.data he
  rw [cmpEndLabel_data, show ("SP" : String).data = ['S', 'P'] from rfl] at hd
  injection hd with h1 _
  exact absurd h1 (by decide)

theorem cmpLabel_not_digits (k : Nat) :
    ¬(("cmp" ++ natStr k).data ≠ [] ∧
      ("cmp" ++ natStr k).data.all Char.isDigit) := by
  intro h
  have h2 := h.2
  rw [cmpLabel_data, List.all_cons, Bool.and_eq_true] at h2
  exact absurd h2.1 (by decide)

theorem cmpEndLabel_not_digits (k : Nat) :
    ¬(("cmp" ++ natStr k ++ "end").data ≠ [] ∧
      ("cmp" ++ natStr k ++ "end").data.all Char.isDigit) := by
  intro h
  have h2 := h.2
  rw [cmpEndLabel_data, List.all_cons, Bool.and_eq_true] at h2
  exact absurd h2.1 (by decide)

theorem findLabel_cmpProg_cmp (jump : String) (k : Nat) :
    findLabel (cmpProg jump k) ("cmp" ++ natStr k) = some 12 := by
  simp [cmpProg, findLabel]

theorem findLabel_cmpProg_end (jump : String) (k : Nat) :
    findLabel (cmpProg jump k) ("cmp" ++ natStr k ++ "end") = some 16 := by
  simp [cmpProg, findLabel, cmpLabel_ne_end k k]

theorem findLabel_cmpProg_SP (jump : String) (k : Nat) :
    findLabel (cmpProg jump k) "SP" = none := by
  simp [cmpProg, findLabel, cmpLabel_ne_SP k, cmpEndLabel_ne_SP k]

theorem resolveSym_SP (jump : String) (k : Nat) :
    resolveSym (cmpProg jump k) "SP" = some 0 := by
  rw [resolveSym, if_neg (by decide), findLabel_cmpProg_SP]
  rfl

theorem resolveSym_cmp (jump : String) (k : Nat) :
    resolveSym (cmpProg jump k) ("cmp" ++ natStr k) = some 12 := by
  rw [resolveSym, if_neg (cmpLabel_not_digits k), findLabel_cmpProg_cmp]
  rfl

theorem resolveSym_cmpEnd (jump : String) (k : Nat) :
    resolveSym (cmpProg jump k) ("cmp" ++ natStr k ++ "end") = some 16 := by
  rw [resolveSym, if_neg (cmpEndLabel_not_digits k), findLabel_cmpProg_end]
  rfl

end N2T.Hack

namespace N2T.Hack

theorem takeWhile_append_all (p : Char → Bool) (l t : List Char)
    (h : ∀ c ∈ l, p c = true) :
    (l ++ t).takeWhile p = l ++ t.takeWhile p := by
  induction l with
  | nil => rfl
  | cons c l ih =>
    rw [List.cons_append, List.takeWhile_cons, h c (List.mem_cons_self c l),
      if_pos rfl,
      ih (fun d hd => h d (List.mem_cons_of_mem c hd)), List.cons_append]

theorem cmpChars_no_rparen (k : Nat) :
    ∀ c ∈ 'c' :: 'm' :: 'p' :: (natStr k).data, (c ≠ ')' : Bool) = true := by
  intro c hc
  simp only [List.mem_cons] at hc
  rcases hc with rfl | rfl | rfl | hc
  · decide
  · decide
  · decide
  · exact decide_eq_true (fun he =>
      absurd (mem_natStr_isDigit (he ▸ hc)) (by decide))

theorem parseHack_lparen_cmp (k : Nat) :
    parseHack ("(cmp" ++ natStr k ++ ")") = some (.linst ("cmp" ++ natStr k)) := by
  rw [parseHack, String.data_append, String.data_append]
  show parseHackAux
    ('(' :: (('c' :: 'm' :: 'p' :: (natStr k).data) ++ [')'])) = _
  rw [parseHackAux, if_pos rfl,
    takeWhile_append_all _ ('c' :: 'm' :: 'p' :: (natStr k).data) [')']
      (cmpChars_no_rparen k),
    show List.takeWhile (fun c => decide (c ≠ ')')) [')'] = [] from rfl,
    List.append_nil]
  rfl

theorem parseHack_lparen_cmpend (k : Nat) :
    parseHack ("(cmp" ++ natStr k ++ "end)") =
      some (.linst ("cmp" ++ natStr k ++ "end")) := by
  rw [parseHack, String.data_append, String.data_append]
  show parseHackAux
    ('(' :: (('c' :: 'm' :: 'p' :: (natStr k).data) ++ ['e', 'n', 'd', ')'])) = _
  rw [parseHackAux, if_pos rfl,
    takeWhile_append_all _ ('c' :: 'm' :: 'p' :: (natStr k).data)
      ['e', 'n', 'd', ')'] (cmpChars_no_rparen k),
    show List.takeWhile (fun c => decide (c ≠ ')')) ['e', 'n', 'd', ')'] =
      ['e', 'n', 'd'] from rfl]
  rfl

end N2T.Hack

namespace N2T.Hack

theorem run_succ_of_step (fuel : Nat) {prog : List HInst} {st st' : MState}
    (hlt : st.pc < prog.length) (hstep : step prog st = some st') :
    run prog (fuel + 1) st = run prog fuel st' := by
  rw [run, if_neg (by omega), hstep]
  rfl

theorem run_halt {prog : List HInst} {fuel : Nat} {st : MState}
    (h : prog.length ≤ st.pc) : run prog fuel st = some st := by
  cases fuel with
  | zero => rw [run, if_pos h]
  | succ n => rw [run, if_pos h]

theorem run_succ_cmp (fuel : Nat) {jump : String} {k : Nat}
    {a d : Int} {m : Int → Int} {pcn : Nat} {st' : MState}
    (hlt : pcn < 17) (hstep : step (cmpProg jump k) ⟨a, d, m, pcn⟩ = some st') :
    run (cmpProg jump k) (fuel + 1) ⟨a, d, m, pcn⟩ =
      run (cmpProg jump k) fuel st' :=
  run_succ_of_step fuel hlt hstep

theorem run_halt_cmp {jump : String} {k : Nat} {fuel : Nat} {st : MState}
    (h : st.pc = 17) : run (cmpProg jump k) fuel st = some st := by
  apply run_halt
  rw [h]
  exact Nat.le_refl 17

/-- Symbolic execution of the comparison block on a well-formed stack:
the stack pointer moves down by one and the slot at `sp - 2` receives `-1`
when the jump condition holds of `x - y`, `0` otherwise; all other memory
is untouched.  The no-overflow bounds on `x - y` are required because the
block computes the comparison through a 16-bit `D=M-D` subtraction. -/
theorem run_cmpProg (jump : String) (k : Nat)
    (sp x y a0 d0 : Int) (mem : Int → Int)
    (hsp1 : 3 ≤ sp) (hsp2 : sp ≤ 32767)
    (hov1 : -32768 ≤ x - y) (hov2 : x - y ≤ 32767)
    (hm0 : mem 0 = sp) (hmx : mem (sp - 2) = x) (hmy : mem (sp - 1) = y) :
    ∃ fin : MState,
      run (cmpProg jump k) 20 ⟨a0, d0, mem, 0⟩ = some fin ∧
      fin.pc = 17 ∧
      fin.mem 0 = sp - 1 ∧
      fin.mem (sp - 2) = (if jumpTaken jump (x - y) then -1 else 0) ∧
      (∀ addr : Int, addr ≠ 0 → addr ≠ sp - 2 → fin.mem addr = mem addr) := by
  set m1 : Int → Int := fun addr => if addr = 0 then sp - 1 else mem addr
    with hm1
  have hm10 : m1 0 = sp - 1 := by
    rw [hm1]
    show (if (0 : Int) = 0 then sp - 1 else mem 0) = sp - 1
    rw [if_pos rfl]
  have hm1y : m1 (sp - 1) = y := by
    rw [hm1]
    show (if sp - 1 = 0 then sp - 1 else mem (sp - 1)) = y
    rw [if_neg (by omega), hmy]
  have hm1x : m1 (sp - 2) = x := by
    rw [hm1]
    show (if sp - 2 = 0 then sp - 1 else mem (sp - 2)) = x
    rw [if_neg (by omega), hmx]
  have h0 : step (cmpProg jump k) ⟨a0, d0, mem, 0⟩ =
      some ⟨0, d0, mem, 1⟩ := by
    show (resolveSym (cmpProg jump k) "SP").map
      (fun v => (⟨v, d0, mem, 1⟩ : MState)) = _
    rw [resolveSym_SP]
    rfl
  have h1 : step (cmpProg jump k) ⟨0, d0, mem, 1⟩ =
      some ⟨sp - 1, d0, m1, 2⟩ := by
    show some (⟨wrap16 (mem 0 - 1), d0,
      fun addr => if addr = 0 then wrap16 (mem 0 - 1) else mem addr,
      2⟩ : MState) = _
    simp only [hm0]
    simp only [wrap16_id (show (-32768 : Int) ≤ sp - 1 by omega)
      (show sp - 1 ≤ (32767 : Int) by omega)]
  have h2 : step (cmpProg jump k) ⟨sp - 1, d0, m1, 2⟩ =
      some ⟨sp - 1, y, m1, 3⟩ := by
    show some (⟨sp - 1, m1 (sp - 1), m1, 3⟩ : MState) = _
    rw [hm1y]
  have h3 : step (cmpProg jump k) ⟨sp - 1, y, m1, 3⟩ =
      some ⟨sp - 2, y, m1, 4⟩ := by
    show some (⟨wrap16 (sp - 1 - 1), y, m1, 4⟩ : MState) = _
    rw [show sp - 1 - 1 = sp - 2 by omega,
      wrap16_id (by omega) (by omega)]
  have h4 : step (cmpProg jump k) ⟨sp - 2, y, m1, 4⟩ =
      some ⟨sp - 2, x - y, m1, 5⟩ := by
    show some (⟨sp - 2, wrap16 (m1 (sp - 2) - y), m1, 5⟩ : MState) = _
    rw [hm1x, wrap16_id hov1 hov2]
  have h5 : step (cmpProg jump k) ⟨sp - 2, x - y, m1, 5⟩ =
      some ⟨12, x - y, m1, 6⟩ := by
    show (resolveSym (cmpProg jump k) ("cmp" ++ natStr k)).map
      (fun v => (⟨v, x - y, m1, 6⟩ : MState)) = _
    rw [resolveSym_cmp]
    rfl
  have h6 : step (cmpProg jump k) ⟨12, x - y, m1, 6⟩ =
      some (if jumpTaken jump (x - y) then (⟨12, x - y, m1, 12⟩ : MState)
        else ⟨12, x - y, m1, 7⟩) := rfl
  cases ht : jumpTaken jump (x - y) with
  | false =>
    rw [ht, if_neg (by decide)] at h6
    have h7 : step (cmpProg jump k) ⟨12, x - y, m1, 7⟩ =
        some ⟨0, x - y, m1, 8⟩ := by
      show (resolveSym (cmpProg jump k) "SP").map
        (fun v => (⟨v, x - y, m1, 8⟩ : MState)) = _
      rw [resolveSym_SP]
      rfl
    have h8 : step (cmpProg jump k) ⟨0, x - y, m1, 8⟩ =
        some ⟨sp - 2, x - y, m1, 9⟩ := by
      show some (⟨wrap16 (m1 0 - 1), x - y, m1, 9⟩ : MState) = _
      rw [hm10, show sp - 1 - 1 = sp - 2 by omega,
        wrap16_id (by omega) (by omega)]
    have h9 : step (cmpProg jump k) ⟨sp - 2, x - y, m1, 9⟩ =
        some ⟨sp - 2, x - y,
          fun addr => if addr = sp - 2 then 0 else m1 addr, 10⟩ := rfl
    have h10 : step (cmpProg jump k)
        ⟨sp - 2, x - y, fun addr => if addr = sp - 2 then 0 else m1 addr, 10⟩ =
        some ⟨16, x - y,
          fun addr => if addr = sp - 2 then 0 else m1 addr, 11⟩ := by
      show (resolveSym (cmpProg jump k) ("cmp" ++ natStr k ++ "end")).map
        (fun v => (⟨v, x - y,
          fun addr => if addr = sp - 2 then 0 else m1 addr, 11⟩ : MState)) = _
      rw [resolveSym_cmpEnd]
      rfl
    have h11 : step (cmpProg jump k)
        ⟨16, x - y, fun addr => if addr = sp - 2 then 0 else m1 addr, 11⟩ =
        some ⟨16, x - y,
          fun addr => if addr = sp - 2 then 0 else m1 addr, 16⟩ := rfl
    have h16 : step (cmpProg jump k)
        ⟨16, x - y, fun addr => if addr = sp - 2 then 0 else m1 addr, 16⟩ =
        some ⟨16, x - y,
          fun addr => if addr = sp - 2 then 0 else m1 addr, 17⟩ := rfl
    refine ⟨⟨16, x - y,
      fun addr => if addr = sp - 2 then 0 else m1 addr, 17⟩, ?_, rfl, ?_, ?_, ?_⟩
    · rw [run_succ_cmp 19 (by decide) h0, run_succ_cmp 18 (by decide) h1,
        run_succ_cmp 17 (by decide) h2, run_succ_cmp 16 (by decide) h3,
        run_succ_cmp 15 (by decide) h4, run_succ_cmp 14 (by decide) h5,
        run_succ_cmp 13 (by decide) h6, run_succ_cmp 12 (by decide) h7,
        run_succ_cmp 11 (by decide) h8, run_succ_cmp 10 (by decide) h9,
        run_succ_cmp 9 (by decide) h10, run_succ_cmp 8 (by decide) h11,
        run_succ_cmp 7 (by decide) h16, run_halt_cmp rfl]
    · show (if (0 : Int) = sp - 2 then 0 else m1 0) = sp - 1
      rw [if_neg (by omega), hm10]
    · show (if sp - 2 = sp - 2 then (0 : Int) else m1 (sp - 2)) =
        if false = true then -1 else 0
      rw [if_pos rfl, if_neg (by decide)]
    · intro addr ha0 has
      show (if addr = sp - 2 then (0 : Int) else m1 addr) = mem addr
      rw [if_neg has, hm1]
      show (if addr = 0 then sp - 1 else mem addr) = mem addr
      rw [if_neg ha0]
  | true =>
    rw [ht, if_pos rfl] at h6
    have h12 : step (cmpProg jump k) ⟨12, x - y, m1, 12⟩ =
        some ⟨12, x - y, m1, 13⟩ := rfl
    have h13 : step (cmpProg jump k) ⟨12, x - y, m1, 13⟩ =
        some ⟨0, x - y, m1, 14⟩ := by
      show (resolveSym (cmpProg jump k) "SP").map
        (fun v => (⟨v, x - y, m1, 14⟩ : MState)) = _
      rw [resolveSym_SP]
      rfl
    have h14 : step (cmpProg jump k) ⟨0, x - y, m1, 14⟩ =
        some ⟨sp - 2, x - y, m1, 15⟩ := by
      show some (⟨wrap16 (m1 0 - 1), x - y, m1, 15⟩ : MState) = _
      rw [hm10, show sp - 1 - 1 = sp - 2 by omega,
        wrap16_id (by omega) (by omega)]
    have h15 : step (cmpProg jump k) ⟨sp - 2, x - y, m1, 15⟩ =
        some ⟨sp - 2, x - y,
          fun addr => if addr = sp - 2 then -1 else m1 addr, 16⟩ := rfl
    have h16 : step (cmpProg jump k)
        ⟨sp - 2, x - y, fun addr => if addr = sp - 2 then -1 else m1 addr, 16⟩ =
        some ⟨sp - 2, x - y,
          fun addr => if addr = sp - 2 then -1 else m1 addr, 17⟩ := rfl
    refine ⟨⟨sp - 2, x - y,
      fun addr => if addr = sp - 2 then -1 else m1 addr, 17⟩, ?_, rfl, ?_, ?_, ?_⟩
    · rw [run_succ_cmp 19 (by decide) h0, run_succ_cmp 18 (by decide) h1,
        run_succ_cmp 17 (by decide) h2, run_succ_cmp 16 (by decide) h3,
        run_succ_cmp 15 (by decide) h4, run_succ_cmp 14 (by decide) h5,
        run_succ_cmp 13 (by decide) h6, run_succ_cmp 12 (by decide) h12,
        run_succ_cmp 11 (by decide) h13, run_succ_cmp 10 (by decide) h14,
        run_succ_cmp 9 (by decide) h15, run_succ_cmp 8 (by decide) h16,
        run_halt_cmp rfl]
    · show (if (0 : Int) = sp - 2 then -1 else m1 0) = sp - 1
      rw [if_neg (by omega), hm10]
    · show (if sp - 2 = sp - 2 then (-1 : Int) else m1 (sp - 2)) =
        if true = true then -1 else 0
      rw [if_pos rfl, if_pos rfl]
    · intro addr ha0 has
      show (if addr = sp - 2 then (-1 : Int) else m1 addr) = mem addr
      rw [if_neg has, hm1]
      show (if addr = 0 then sp - 1 else mem addr) = mem addr
      rw [if_neg ha0]

end N2T.Hack


namespace N2T.VM

theorem writeArithmetic_cmp (st : CWState) (cmd : String)
    (h : cmd = "eq" ∨ cmd = "gt" ∨ cmd = "lt") (hdbg : st.debug = false) :
    (writeArithmetic st cmd).2 =
      ["@SP", "AM=M-1", "D=M", "A=A-1", "D=M-D",
       "@cmp" ++ natStr st.cur_jump_i, "D;" ++ Hack.jumpFor cmd,
       "@SP", "A=M-1", "M=0",
       "@cmp" ++ natStr st.cur_jump_i ++ "end", "0;JMP",
       "(cmp" ++ natStr st.cur_jump_i ++ ")", "@SP", "A=M-1", "M=-1",
       "(cmp" ++ natStr st.cur_jump_i ++ "end)"] := by
  rcases h with rfl | rfl | rfl <;>
    simp [writeArithmetic, hdbg, Hack.jumpFor]

theorem writeArithmetic_cmp_parse (st : CWState) (cmd : String)
    (h : cmd = "eq" ∨ cmd = "gt" ∨ cmd = "lt") (hdbg : st.debug = false) :
    (writeArithmetic st cmd).2.map Hack.parseHack =
      (Hack.cmpProg (Hack.jumpFor cmd) st.cur_jump_i).map some := by
  rw [writeArithmetic_cmp st cmd h hdbg]
  rcases h with rfl | rfl | rfl <;>
  · simp only [List.map_cons, List.map_nil, Hack.cmpProg,
      Hack.parseHack_lparen_cmp, Hack.parseHack_lparen_cmpend]
    rfl

theorem jumpTaken_jumpFor (cmd : String)
    (h : cmd = "eq" ∨ cmd = "gt" ∨ cmd = "lt") (x y : Int) :
    Hack.jumpTaken (Hack.jumpFor cmd) (x - y) = Hack.cmpHolds cmd x y := by
  rcases h with rfl | rfl | rfl <;>
    simp [Hack.jumpTaken, Hack.jumpFor, Hack.cmpHolds, sub_eq_zero,
      sub_pos, sub_neg]

theorem jump_i_lt (debug : Bool) (cmds : List VMCmd) (p q : Nat) (cp : String)
    (hpq : p < q) (hp : cmds[p]? = some (VMCmd.arith cp))
    (hcp : cp = "eq" ∨ cp = "gt" ∨ cp = "lt") :
    (translateCmds (initState debug) (cmds.take p)).1.cur_jump_i <
    (translateCmds (initState debug) (cmds.take q)).1.cur_jump_i := by
  have htp1 : cmds.take (p + 1) = cmds.take p ++ [VMCmd.arith cp] := by
    rw [List.take_succ, hp]
    rfl
  have htq : cmds.take q =
      (cmds.take p ++ [VMCmd.arith cp]) ++
        (cmds.drop (p + 1)).take (q - (p + 1)) := by
    rw [← htp1, ← List.take_add]
    congr 1
    omega
  rw [htq, translateCmds_fst_append, translateCmds_fst_append]
  have h2 := translateCmds_jump_mono
    (translateCmds (translateCmds (initState debug) (cmds.take p)).1
      [VMCmd.arith cp]).1
    ((cmds.drop (p + 1)).take (q - (p + 1)))
  have h3 : (translateCmds (translateCmds (initState debug) (cmds.take p)).1
      [VMCmd.arith cp]).1.cur_jump_i =
      (translateCmds (initState debug) (cmds.take p)).1.cur_jump_i + 1 := by
    rw [translateCmds_fst_cons]
    exact stepCmd_cmp_jump _ cp hcp
  omega

/-- **C6** (amended: the push of `-1`/`0` matches the mathematical
comparison only when `x - y` does not overflow 16 bits — the block computes
the comparison via a wrapped `D=M-D` subtraction, see the counterexample):
every comparison command `eq`/`gt`/`lt` emits the 17-line block whose
parsed form is `cmpProg`; run on a Hack machine over a stack holding `x`
under `y`, it pops both and pushes `-1` when the comparison holds and `0`
when it fails (provided `-32768 ≤ x - y ≤ 32767`), leaving all other memory
unchanged; the block's label pair is `cmp<k>`/`cmp<k>end` with `k` the
translator's comparison counter, which no `function` command resets and
every comparison command increments; and two comparison commands at
different positions of one translation get disjoint label pairs. -/
theorem claim_C6_comparisons (debug : Bool) (cmds : List VMCmd) :
    (∀ (st : CWState) (cmd : String),
      (cmd = "eq" ∨ cmd = "gt" ∨ cmd = "lt") → st.debug = false →
      (writeArithmetic st cmd).2 =
        ["@SP", "AM=M-1", "D=M", "A=A-1", "D=M-D",
         "@cmp" ++ natStr st.cur_jump_i, "D;" ++ Hack.jumpFor cmd,
         "@SP", "A=M-1", "M=0",
         "@cmp" ++ natStr st.cur_jump_i ++ "end", "0;JMP",
         "(cmp" ++ natStr st.cur_jump_i ++ ")", "@SP", "A=M-1", "M=-1",
         "(cmp" ++ natStr st.cur_jump_i ++ "end)"] ∧
      (writeArithmetic st cmd).2.map Hack.parseHack =
        (Hack.cmpProg (Hack.jumpFor cmd) st.cur_jump_i).map some ∧
      (∀ (sp x y a0 d0 : Int) (mem : Int → Int),
        3 ≤ sp → sp ≤ 32767 → -32768 ≤ x - y → x - y ≤ 32767 →
        mem 0 = sp → mem (sp - 2) = x → mem (sp - 1) = y →
        ∃ fin : Hack.MState,
          Hack.run (Hack.cmpProg (Hack.jumpFor cmd) st.cur_jump_i) 20
              ⟨a0, d0, mem, 0⟩ = some fin ∧
          fin.pc = 17 ∧
          fin.mem 0 = sp - 1 ∧
          fin.mem (sp - 2) = (if Hack.cmpHolds cmd x y then -1 else 0) ∧
          (∀ addr : Int, addr ≠ 0 → addr ≠ sp - 2 →
            fin.mem addr = mem addr))) ∧
    (∀ (st : CWState) (F : String) (n : Nat),
      (stepCmd st (VMCmd.func F n)).1.cur_jump_i = st.cur_jump_i) ∧
    (∀ (st : CWState) (cmd : String),
      (cmd = "eq" ∨ cmd = "gt" ∨ cmd = "lt") →
      (stepCmd st (VMCmd.arith cmd)).1.cur_jump_i = st.cur_jump_i + 1) ∧
    (∀ (p q : Nat) (cp cq : String), p < q →
      cmds[p]? = some (VMCmd.arith cp) → cmds[q]? = some (VMCmd.arith cq) →
      (cp = "eq" ∨ cp = "gt" ∨ cp = "lt") →
      (cq = "eq" ∨ cq = "gt" ∨ cq = "lt") →
      (("cmp" ++ natStr (translateCmds (initState debug)
          (cmds.take p)).1.cur_jump_i : String) ≠
        "cmp" ++ natStr (translateCmds (initState debug)
          (cmds.take q)).1.cur_jump_i) ∧
      (("cmp" ++ natStr (translateCmds (initState debug)
          (cmds.take p)).1.cur_jump_i : String) ≠
        "cmp" ++ natStr (translateCmds (initState debug)
          (cmds.take q)).1.cur_jump_i ++ "end") ∧
      (("cmp" ++ natStr (translateCmds (initState debug)
          (cmds.take p)).1.cur_jump_i ++ "end" : String) ≠
        "cmp" ++ natStr (translateCmds (initState debug)
          (cmds.take q)).1.cur_jump_i) ∧
      (("cmp" ++ natStr (translateCmds (initState debug)
          (cmds.take p)).1.cur_jump_i ++ "end" : String) ≠
        "cmp" ++ natStr (translateCmds (initState debug)
          (cmds.take q)).1.cur_jump_i ++ "end")) := by
  refine ⟨?_, fun st F n => rfl, fun st cmd h => stepCmd_cmp_jump st cmd h, ?_⟩
  · intro st cmd h hdbg
    refine ⟨writeArithmetic_cmp st cmd h hdbg,
      writeArithmetic_cmp_parse st cmd h hdbg, ?_⟩
    intro sp x y a0 d0 mem hsp1 hsp2 hov1 hov2 hm0 hmx hmy
    obtain ⟨fin, hrun, hpc, hmem0, hmemsp, hframe⟩ :=
      Hack.run_cmpProg (Hack.jumpFor cmd) st.cur_jump_i sp x y a0 d0 mem
        hsp1 hsp2 hov1 hov2 hm0 hmx hmy
    exact ⟨fin, hrun, hpc, hmem0,
      by rw [hmemsp, jumpTaken_jumpFor cmd h], hframe⟩
  · intro p q cp cq hpq hp hq hcp hcq
    have hk := jump_i_lt debug cmds p q cp hpq hp hcp
    exact ⟨Hack.cmpLabel_ne _ _ (Nat.ne_of_lt hk),
      Hack.cmpLabel_ne_end _ _,
      Ne.symm (Hack.cmpLabel_ne_end _ _),
      Hack.cmpEndLabel_ne _ _ (Nat.ne_of_lt hk)⟩

/-- **C6 counterexample**: the claim promises `-1` whenever the comparison
holds, with no overflow proviso.  For `gt` with `x = 16384`, `y = -16384`
(both representable) the difference `x - y = 32768` wraps to `-32768`, the
`JGT` jump is not taken, and the block pushes `0` although `x > y`. -/
theorem claim_C6_counterexample :
    ((16384 : Int) > -16384) ∧
    Hack.cmpHolds "gt" 16384 (-16384) = true ∧
    (writeArithmetic (initState false) "gt").2.map Hack.parseHack =
      (Hack.cmpProg "JGT" 0).map some ∧
    (Hack.run (Hack.cmpProg "JGT" 0) 20 ⟨0, 0, Hack.cexMem, 0⟩).map
        (fun fin => (fin.pc, fin.mem 0, fin.mem 256)) =
      some (17, 257, 0) :=
  ⟨by decide, by decide, rfl, rfl⟩

theorem claim_C6_witness :
    (∃ fin : Hack.MState,
      Hack.run (Hack.cmpProg (Hack.jumpFor "eq")
          (initState false).cur_jump_i) 20 ⟨0, 0, Hack.wMem, 0⟩ = some fin ∧
      fin.pc = 17 ∧
      fin.mem 0 = 5 - 1 ∧
      fin.mem (5 - 2) = (if Hack.cmpHolds "eq" 7 7 then -1 else 0) ∧
      (∀ addr : Int, addr ≠ 0 → addr ≠ 5 - 2 →
        fin.mem addr = Hack.wMem addr)) ∧
    (("cmp" ++ natStr (translateCmds (initState false)
        ([VMCmd.arith "eq", VMCmd.arith "lt"].take 0)).1.cur_jump_i : String) ≠
      "cmp" ++ natStr (translateCmds (initState false)
        ([VMCmd.arith "eq", VMCmd.arith "lt"].take 1)).1.cur_jump_i) := by
  refine ⟨?_, ?_⟩
  · exact ((claim_C6_comparisons false [VMCmd.arith "eq", VMCmd.arith "lt"]).1
      (initState false) "eq" (Or.inl rfl) rfl).2.2 5 7 7 0 0 Hack.wMem
      (by decide) (by decide) (by decide) (by decide) rfl rfl rfl
  · exact ((claim_C6_comparisons false
      [VMCmd.arith "eq", VMCmd.arith "lt"]).2.2.2
      0 1 "eq" "lt" (by decide) rfl rfl (Or.inl rfl)
      (Or.inr (Or.inr rfl))).1

end N2T.VM
namespace N2T.VM

theorem vmCmp_lt_iff (x u : String) :
    vmCmp x u < 0 ↔ (x = "Sys" ∨ (x = "Main" ∧ u ≠ "Sys")) := by
  unfold vmCmp
  by_cases h1 : x = "Sys"
  · simp [h1]
  · by_cases h2 : x = "Main" ∧ u ≠ "Sys"
    · simp [h1, h2]
    · simp [h1, h2]

theorem stemRank_le_two (u : String) : stemRank u ≤ 2 := by
  unfold stemRank
  split_ifs <;> omega

theorem rank_le_of_K {x u : String} (h : vmCmp x u < 0) :
    stemRank x ≤ stemRank u := by
  rcases (vmCmp_lt_iff x u).mp h with rfl | ⟨rfl, hu⟩
  · exact Nat.zero_le _
  · show 1 ≤ stemRank u
    unfold stemRank
    rw [if_neg hu]
    split_ifs <;> omega

theorem rank_le_of_not_K {x u : String} (h : ¬(vmCmp x u < 0)) :
    stemRank u ≤ stemRank x := by
  rw [vmCmp_lt_iff] at h
  push_neg at h
  obtain ⟨hxs, hxm⟩ := h
  by_cases hm : x = "Main"
  · have hu := hxm hm
    subst hm
    subst hu
    decide
  · have h2 : stemRank x = 2 := by
      unfold stemRank
      rw [if_neg hxs, if_neg hm]
    rw [h2]
    exact stemRank_le_two u

theorem vmCmp_mono_of_sorted (a : List String)
    (hs : List.Pairwise (fun u v => stemRank u ≤ stemRank v) a) (x : String) :
    ∀ i j, i ≤ j → j < a.length →
      vmCmp x (a.getD i "") < 0 → vmCmp x (a.getD j "") < 0 := by
  intro i j hij hj hK
  have hi : i < a.length := Nat.lt_of_le_of_lt hij hj
  rw [List.getD_eq_getElem a "" hi] at hK
  rw [List.getD_eq_getElem a "" hj]
  rcases Nat.eq_or_lt_of_le hij with rfl | hlt
  · exact hK
  · have hrank : stemRank a[i] ≤ stemRank a[j] :=
      List.pairwise_iff_getElem.mp hs i j hi hj hlt
    rw [vmCmp_lt_iff] at hK ⊢
    rcases hK with rfl | ⟨rfl, hne⟩
    · exact Or.inl rfl
    · refine Or.inr ⟨rfl, ?_⟩
      intro hjs
      apply hne
      have h0 : stemRank a[j] = 0 := by rw [hjs]; rfl
      have h1 : 1 ≤ stemRank a[i] := by
        unfold stemRank
        rw [if_neg hne]
        split_ifs <;> omega
      omega

theorem binSearchPos_spec (a : List String) (x : String) :
    ∀ (fuel l r : Nat), l ≤ r → r ≤ a.length → r - l ≤ fuel →
    (∀ i j, l ≤ i → i ≤ j → j < r →
      vmCmp x (a.getD i "") < 0 → vmCmp x (a.getD j "") < 0) →
    l ≤ binSearchPos a x fuel l r ∧ binSearchPos a x fuel l r ≤ r ∧
    (∀ i, l ≤ i → i < binSearchPos a x fuel l r →
      ¬(vmCmp x (a.getD i "") < 0)) ∧
    (∀ i, binSearchPos a x fuel l r ≤ i → i < r →
      vmCmp x (a.getD i "") < 0) := by
  intro fuel
  induction fuel with
  | zero =>
    intro l r hlr hra hfuel hmono
    have hl : l = r := by omega
    subst hl
    rw [binSearchPos]
    exact ⟨le_rfl, le_rfl, fun i h1 h2 => absurd h2 (by omega),
      fun i h1 h2 => absurd h2 (by omega)⟩
  | succ fuel ih =>
    intro l r hlr hra hfuel hmono
    by_cases hlt : l < r
    · rw [binSearchPos, if_pos hlt]
      by_cases hp : vmCmp x (a.getD (l + (r - l) / 2) "") < 0
      · rw [if_pos hp]
        obtain ⟨hA, hB, hC, hD⟩ := ih l (l + (r - l) / 2) (by omega) (by omega)
          (by omega) (fun i j h1 h2 h3 => hmono i j h1 h2 (by omega))
        refine ⟨hA, by omega, hC, ?_⟩
        intro i h1 h2
        by_cases hip : i < l + (r - l) / 2
        · exact hD i h1 hip
        · exact hmono (l + (r - l) / 2) i (by omega) (by omega) h2 hp
      · rw [if_neg hp]
        obtain ⟨hA, hB, hC, hD⟩ := ih (l + (r - l) / 2 + 1) r (by omega) hra
          (by omega) (fun i j h1 h2 h3 => hmono i j (by omega) h2 h3)
        refine ⟨by omega, hB, ?_, hD⟩
        intro i h1 h2
        by_cases hip : l + (r - l) / 2 + 1 ≤ i
        · exact hC i hip h2
        · intro hKi
          exact hp (hmono i (l + (r - l) / 2) h1 (by omega) (by omega) hKi)
    · rw [binSearchPos, if_neg hlt]
      have hl : l = r := by omega
      subst hl
      exact ⟨le_rfl, le_rfl, fun i h1 h2 => absurd h2 (by omega),
        fun i h1 h2 => absurd h2 (by omega)⟩

theorem insertAt_perm (x : String) : ∀ (pos : Nat) (a : List String),
    (insertAt x pos a).Perm (x :: a) := by
  intro pos
  induction pos with
  | zero =>
    intro a
    rw [insertAt]
  | succ pos ih =>
    intro a
    cases a with
    | nil => rw [insertAt]
    | cons c a =>
      rw [insertAt]
      exact ((ih a).cons c).trans (List.Perm.swap x c a)

theorem pairwise_insertAt (R : String → String → Prop) (x : String) :
    ∀ (pos : Nat) (a : List String), List.Pairwise R a →
    (∀ (i : Nat) (hi : i < a.length), i < pos → R (a.get ⟨i, hi⟩) x) →
    (∀ (i : Nat) (hi : i < a.length), pos ≤ i → R x (a.get ⟨i, hi⟩)) →
    List.Pairwise R (insertAt x pos a) := by
  intro pos
  induction pos with
  | zero =>
    intro a hp hpre hsuf
    rw [insertAt]
    refine List.pairwise_cons.mpr ⟨?_, hp⟩
    intro u hu
    obtain ⟨⟨i, hi⟩, rfl⟩ := List.mem_iff_get.mp hu
    exact hsuf i hi (Nat.zero_le i)
  | succ pos ih =>
    intro a hp hpre hsuf
    cases a with
    | nil =>
      rw [insertAt]
      exact List.pairwise_singleton R x
    | cons c a =>
      rw [insertAt]
      obtain ⟨hc, hp'⟩ := List.pairwise_cons.mp hp
      refine List.pairwise_cons.mpr ⟨?_, ?_⟩
      · intro u hu
        rcases List.mem_cons.mp ((insertAt_perm x pos a).mem_iff.mp hu) with
          rfl | hu'
        · exact hpre 0 (Nat.succ_pos _) (Nat.succ_pos pos)
        · exact hc u hu'
      · refine ih a hp' ?_ ?_
        · intro i hi hlt
          exact hpre (i + 1) (Nat.succ_lt_succ hi) (Nat.succ_lt_succ hlt)
        · intro i hi hge
          exact hsuf (i + 1) (Nat.succ_lt_succ hi) (Nat.succ_le_succ hge)

theorem binInsertAll_spec :
    ∀ (rest a : List String),
      List.Pairwise (fun u v => stemRank u ≤ stemRank v) a →
      List.Pairwise (fun u v => stemRank u ≤ stemRank v) (binInsertAll a rest) ∧
      (binInsertAll a rest).Perm (a ++ rest) := by
  intro rest
  induction rest with
  | nil =>
    intro a ha
    rw [binInsertAll]
    exact ⟨ha, by simp⟩
  | cons x rest ih =>
    intro a ha
    rw [binInsertAll]
    obtain ⟨hA, hB, hC, hD⟩ := binSearchPos_spec a x a.length 0 a.length
      (Nat.zero_le _) le_rfl (by omega)
      (fun i j h1 h2 h3 => vmCmp_mono_of_sorted a ha x i j h2 h3)
    have hsorted : List.Pairwise (fun u v => stemRank u ≤ stemRank v)
        (insertAt x (binSearchPos a x a.length 0 a.length) a) := by
      refine pairwise_insertAt _ x _ a ha ?_ ?_
      · intro i hi hlt
        have h1 := rank_le_of_not_K (hC i (Nat.zero_le i) hlt)
        rwa [List.getD_eq_getElem a "" hi] at h1
      · intro i hi hge
        have h1 := rank_le_of_K (hD i hge hi)
        rwa [List.getD_eq_getElem a "" hi] at h1
    obtain ⟨hps, hperm⟩ := ih _ hsorted
    refine ⟨hps, hperm.trans ?_⟩
    have heq : (x :: a) ++ rest = x :: (a ++ rest) := rfl
    exact (((insertAt_perm x _ a).append_right rest).trans
      (heq ▸ List.perm_middle.symm))

end N2T.VM

namespace N2T.VM

theorem countRunAsc_spec :
    ∀ (rest : List String) (prev : String),
      List.Chain' (fun u v => ¬(vmCmp v u < 0))
        (prev :: (countRunAsc prev rest).1) ∧
      (countRunAsc prev rest).1 ++ (countRunAsc prev rest).2 = rest := by
  intro rest
  induction rest with
  | nil =>
    intro prev
    exact ⟨List.chain'_singleton prev, rfl⟩
  | cons c rest ih =>
    intro prev
    by_cases h : vmCmp c prev < 0
    · simp only [countRunAsc, h, not_true_eq_false, if_false]
      exact ⟨List.chain'_singleton prev, rfl⟩
    · simp only [countRunAsc, h, not_false_eq_true, if_true]
      refine ⟨List.chain'_cons.mpr ⟨h, (ih c).1⟩, ?_⟩
      rw [List.cons_append, (ih c).2]

theorem countRunDesc_spec :
    ∀ (rest : List String) (prev : String),
      List.Chain' (fun u v => vmCmp v u < 0)
        (prev :: (countRunDesc prev rest).1) ∧
      (countRunDesc prev rest).1 ++ (countRunDesc prev rest).2 = rest := by
  intro rest
  induction rest with
  | nil =>
    intro prev
    exact ⟨List.chain'_singleton prev, rfl⟩
  | cons c rest ih =>
    intro prev
    by_cases h : vmCmp c prev < 0
    · simp only [countRunDesc, h, if_true]
      refine ⟨List.chain'_cons.mpr ⟨h, (ih c).1⟩, ?_⟩
      rw [List.cons_append, (ih c).2]
    · simp only [countRunDesc, h, if_false]
      exact ⟨List.chain'_singleton prev, rfl⟩

theorem pySortRun_spec (l : List String) :
    List.Pairwise (fun u v => stemRank u ≤ stemRank v) (pySortRun l).1 ∧
    ((pySortRun l).1 ++ (pySortRun l).2).Perm l := by
  haveI hTle : IsTrans String (fun u v => stemRank u ≤ stemRank v) :=
    ⟨fun a b c h1 h2 => le_trans h1 h2⟩
  haveI hTge : IsTrans String (fun u v => stemRank v ≤ stemRank u) :=
    ⟨fun a b c h1 h2 => le_trans h2 h1⟩
  match l with
  | [] => exact ⟨List.Pairwise.nil, List.Perm.refl _⟩
  | [x] => exact ⟨List.pairwise_singleton _ x, List.Perm.refl _⟩
  | x :: y :: rest =>
    by_cases h : vmCmp y x < 0
    · simp only [pySortRun, h, if_true]
      obtain ⟨hchain, happ⟩ := countRunDesc_spec rest y
      have hchain2 : List.Chain' (fun u v => vmCmp v u < 0)
          (x :: y :: (countRunDesc y rest).1) :=
        List.chain'_cons.mpr ⟨h, hchain⟩
      have hchain3 : List.Chain' (fun u v => stemRank v ≤ stemRank u)
          (x :: y :: (countRunDesc y rest).1) :=
        hchain2.imp (fun a b hab => rank_le_of_K hab)
      refine ⟨?_, ?_⟩
      · rw [List.pairwise_reverse]
        exact List.chain'_iff_pairwise.mp hchain3
      · refine ((List.reverse_perm _).append_right _).trans ?_
        rw [List.cons_append, List.cons_append, happ]
    · simp only [pySortRun, h, if_false]
      obtain ⟨hchain, happ⟩ := countRunAsc_spec rest y
      have hchain2 : List.Chain' (fun u v => ¬(vmCmp v u < 0))
          (x :: y :: (countRunAsc y rest).1) :=
        List.chain'_cons.mpr ⟨h, hchain⟩
      have hchain3 : List.Chain' (fun u v => stemRank u ≤ stemRank v)
          (x :: y :: (countRunAsc y rest).1) :=
        hchain2.imp (fun a b hab => rank_le_of_not_K hab)
      refine ⟨List.chain'_iff_pairwise.mp hchain3, ?_⟩
      rw [List.cons_append, List.cons_append, happ]

end N2T.VM

namespace N2T.VM

theorem stemRank_cases (s : String) :
    (s = "Sys" ∧ stemRank s = 0) ∨ (s = "Main" ∧ stemRank s = 1) ∨
    (s ≠ "Sys" ∧ s ≠ "Main" ∧ stemRank s = 2) := by
  unfold stemRank
  by_cases h1 : s = "Sys"
  · rw [if_pos h1]
    exact Or.inl ⟨h1, rfl⟩
  · rw [if_neg h1]
    by_cases h2 : s = "Main"
    · rw [if_pos h2]
      exact Or.inr (Or.inl ⟨h2, rfl⟩)
    · rw [if_neg h2]
      exact Or.inr (Or.inr ⟨h1, h2, rfl⟩)

/-- **C4**: for every initial ordering of the stems of the `.vm` files of a
directory, the translator's sort (CPython `list.sort` with
`cmp_to_key(cmp)`, which for fewer than 64 elements is `count_run` followed
by binary insertion) returns a permutation in which the Sys/Main/other
ranks are non-decreasing: every `Sys` precedes everything else, and every
`Main` precedes every remaining non-`Sys` stem.  The length bound marks the
regime in which the embedded `pySort` is CPython's algorithm verbatim
(below the minimum merge-run size there is a single `binarysort` call). -/
theorem claim_C4_sort_order (l : List String) (hlen : l.length ≤ 63) :
    (pySort l).Perm l ∧
    List.Pairwise (fun u v => stemRank u ≤ stemRank v) (pySort l) ∧
    (∀ (i j : Nat) (s : String), i < j →
      (pySort l)[j]? = some "Sys" → (pySort l)[i]? = some s → s = "Sys") ∧
    (∀ (i j : Nat) (s : String), i < j →
      (pySort l)[j]? = some "Main" → (pySort l)[i]? = some s →
      s = "Sys" ∨ s = "Main") := by
  obtain ⟨hrun, hrperm⟩ := pySortRun_spec l
  obtain ⟨hps, hperm⟩ := binInsertAll_spec (pySortRun l).2 (pySortRun l).1 hrun
  have hsorted : List.Pairwise (fun u v => stemRank u ≤ stemRank v)
      (pySort l) := hps
  have hperml : (pySort l).Perm l := hperm.trans hrperm
  have hpos : ∀ (i j : Nat) (si sj : String), i < j →
      (pySort l)[i]? = some si → (pySort l)[j]? = some sj →
      stemRank si ≤ stemRank sj := by
    intro i j si sj hij hi hj
    have hjl : j < (pySort l).length := by
      by_contra hc
      rw [List.getElem?_eq_none (by omega)] at hj
      cases hj
    have hil : i < (pySort l).length := by omega
    rw [List.getElem?_eq_getElem hil] at hi
    rw [List.getElem?_eq_getElem hjl] at hj
    injection hi with hi
    injection hj with hj
    rw [← hi, ← hj]
    exact List.pairwise_iff_getElem.mp hsorted i j hil hjl hij
  refine ⟨hperml, hsorted, ?_, ?_⟩
  · intro i j s hij hj hi
    have hr := hpos i j s "Sys" hij hi hj
    rcases stemRank_cases s with ⟨hs, hv⟩ | ⟨hs, hv⟩ | ⟨hs1, hs2, hv⟩
    · exact hs
    · rw [hv, show stemRank "Sys" = 0 from rfl] at hr
      exact absurd hr (by decide)
    · rw [hv, show stemRank "Sys" = 0 from rfl] at hr
      exact absurd hr (by decide)
  · intro i j s hij hj hi
    have hr := hpos i j s "Main" hij hi hj
    rcases stemRank_cases s with ⟨hs, hv⟩ | ⟨hs, hv⟩ | ⟨hs1, hs2, hv⟩
    · exact Or.inl hs
    · exact Or.inr hs
    · rw [hv, show stemRank "Main" = 1 from rfl] at hr
      exact absurd hr (by decide)

theorem claim_C4_witness :
    (["Main", "X", "Sys"] : List String).length ≤ 63 ∧
    (pySort ["Main", "X", "Sys"]).Perm ["Main", "X", "Sys"] ∧
    pySort ["Main", "X", "Sys"] = ["Sys", "Main", "X"] :=
  ⟨by decide,
   (claim_C4_sort_order ["Main", "X", "Sys"] (by decide)).1,
   rfl⟩

end N2T.VM
